import Mathlib

/-!
# recode: marker-bounded splicing of rendered templates

A shallow embedding of `main.go` of `hysios/recode`.

Go strings and byte slices are sequences of bytes; a byte is a natural number
(the values a Go program can hold are those below 256, the theorems hold for
every list).  Positions are `token.Pos` values: the file is the first one added
to a fresh `token.FileSet`, whose base is 1, so the position of the byte at
offset `k` is `k + 1`.

The parts of the Go standard library the program calls (`strings`,
`path/filepath`, `go/ast`, `html/template`) are embedded next to the program's
own functions, each under the name it has in Go.
-/

namespace Recode

/-! ## Go strings -/

/-- A Go string or byte slice. -/
abbrev Bytes := List Nat

/-- The bytes (UTF-8) of a string literal. -/
def str (s : String) : Bytes := s.toUTF8.data.toList.map UInt8.toNat

/-! ## Package strings -/

/-- Go: `len(s) >= len(pre) && s[:len(pre)] == pre`. -/
def HasPrefix (s pre : Bytes) : Bool :=
  decide (pre.length ≤ s.length) && (s.take pre.length == pre)

/-- Go: `len(s) >= len(suf) && s[len(s)-len(suf):] == suf`. -/
def HasSuffix (s suf : Bytes) : Bool :=
  decide (suf.length ≤ s.length) && (s.drop (s.length - suf.length) == suf)

/-- Go: `if HasPrefix(s, pre) { return s[len(pre):] }; return s`. -/
def TrimPrefix (s pre : Bytes) : Bytes :=
  if HasPrefix s pre then s.drop pre.length else s

/-- Go: `if HasSuffix(s, suf) { return s[:len(s)-len(suf)] }; return s`. -/
def TrimSuffix (s suf : Bytes) : Bytes :=
  if HasSuffix s suf then s.take (s.length - suf.length) else s

/-- The table `asciiSpace` of package strings: tab, line feed, vertical tab, form feed,
carriage return, space. -/
def asciiSpace (c : Nat) : Bool :=
  c == 9 || c == 10 || c == 11 || c == 12 || c == 13 || c == 32

/-- Two-byte UTF-8 encodings of the runes of `unicode.IsSpace`: U+0085 and U+00A0. -/
def space2 (a b : Nat) : Bool :=
  a == 0xC2 && (b == 0x85 || b == 0xA0)

/-- Three-byte UTF-8 encodings of the runes of `unicode.IsSpace`: U+1680, U+2000 to U+200A,
U+2028, U+2029, U+202F, U+205F and U+3000. -/
def space3 (a b c : Nat) : Bool :=
  (a == 0xE1 && b == 0x9A && c == 0x80) ||
  (a == 0xE2 && b == 0x80 && ((decide (0x80 ≤ c) && decide (c ≤ 0x8A)) || c == 0xA8 || c == 0xA9 || c == 0xAF)) ||
  (a == 0xE2 && b == 0x81 && c == 0x9F) ||
  (a == 0xE3 && b == 0x80 && c == 0x80)

/-- Drops from the front every white-space rune, `p2` and `p3` recognising the two-byte and
three-byte encodings.  A byte that starts no white-space rune (also one that is part of an invalid
encoding, which decodes to U+FFFD) stops the scan. -/
def trimFront (p2 : Nat → Nat → Bool) (p3 : Nat → Nat → Nat → Bool) : Bytes → Bytes
  | [] => []
  | [a] => if asciiSpace a then [] else [a]
  | [a, b] =>
    if asciiSpace a then trimFront p2 p3 [b]
    else if p2 a b then []
    else [a, b]
  | a :: b :: c :: s =>
    if asciiSpace a then trimFront p2 p3 (b :: c :: s)
    else if p2 a b then trimFront p2 p3 (c :: s)
    else if p3 a b c then trimFront p2 p3 s
    else a :: b :: c :: s

/-- Go: `strings.TrimSpace`: the white space of `unicode.IsSpace` is removed at the front, then at
the back of what is left (the back is scanned by `utf8.DecodeLastRuneInString`, here the front of
the reversed string with the encodings read backwards). -/
def TrimSpace (s : Bytes) : Bytes :=
  (trimFront (fun a b => space2 b a) (fun a b c => space3 c b a)
    (trimFront space2 space3 s).reverse).reverse

/-- Go: `strings.Join`: nothing for no element, the element itself for one, else the first element
and then, for each further element, the separator and the element. -/
def Join : List Bytes → Bytes → Bytes
  | [], _ => []
  | [a], _ => a
  | a :: rest, sep => rest.foldl (fun b s => b ++ sep ++ s) a

/-- Go: `utf8.DecodeRuneInString`, the size it returns: 0 for the empty string; 1 for a byte below
0xC2 or above 0xF4 (ASCII, or no first byte of an encoding) and for every first byte whose
encoding is cut short or continues with a byte outside the accepted range; else the 2, 3 or 4 bytes
of the encoding.  The second byte is accepted in 0x80 to 0xBF, from 0xA0 after 0xE0, to 0x9F after
0xED, from 0x90 after 0xF0 and to 0x8F after 0xF4. -/
def runeSize : Bytes → Nat
  | [] => 0
  | s0 :: rest =>
    if s0 < 0xC2 ∨ 0xF4 < s0 then 1
    else
      let sz := if s0 < 0xE0 then 2 else if s0 < 0xF0 then 3 else 4
      let lo := if s0 = 0xE0 then 0xA0 else if s0 = 0xF0 then 0x90 else 0x80
      let hi := if s0 = 0xED then 0x9F else if s0 = 0xF4 then 0x8F else 0xBF
      if rest.length + 1 < sz then 1
      else
        match rest with
        | [] => 1
        | s1 :: rest1 =>
          if s1 < lo ∨ hi < s1 then 1
          else if sz ≤ 2 then 2
          else
            match rest1 with
            | [] => 1
            | s2 :: rest2 =>
              if s2 < 0x80 ∨ 0xBF < s2 then 1
              else if sz ≤ 3 then 3
              else
                match rest2 with
                | [] => 1
                | s3 :: _ => if s3 < 0x80 ∨ 0xBF < s3 then 1 else 4

/-- The loop of `utf8.RuneCountInString`: one rune for each decoding step, at most `fuel`
steps. -/
def runeCountLoop : Nat → Bytes → Nat
  | 0, _ => 0
  | _ + 1, [] => 0
  | fuel + 1, c :: s => runeCountLoop fuel ((c :: s).drop (runeSize (c :: s))) + 1

/-- Go: `utf8.RuneCountInString`; a step consumes at least one byte, so `len(s)` steps reach the
end. -/
def RuneCountInString (s : Bytes) : Nat := runeCountLoop s.length s

/-- The loop of `explode`: `k` times, the first rune of `s` is cut off; what is left is the last
element. -/
def explodeLoop : Nat → Bytes → List Bytes
  | 0, s => [s]
  | k + 1, s => s.take (runeSize s) :: explodeLoop k (s.drop (runeSize s))

/-- Go: `explode(s, -1)` of package strings: `s` cut into its UTF-8 sequences, one for each rune,
an invalid byte being sliced on its own. -/
def explode (s : Bytes) : List Bytes :=
  let n := RuneCountInString s
  if n > 0 then explodeLoop (n - 1) s else []

/-- Go: `strings.Index`: the offset of the first occurrence of `substr` in `s`, `none` for -1. -/
def Index : Bytes → Bytes → Option Nat
  | [], substr => if substr = [] then some 0 else none
  | c :: s, substr =>
    if substr.isPrefixOf (c :: s) then some 0 else (Index s substr).map (fun i => i + 1)

/-- The loop of `strings.Count` for a non-empty `substr`: each occurrence found counts one and the
search goes on behind it; at most `fuel` occurrences are looked for. -/
def countLoop (substr : Bytes) : Nat → Bytes → Nat
  | 0, _ => 0
  | fuel + 1, s =>
    match Index s substr with
    | none => 0
    | some i => countLoop substr fuel (s.drop (i + substr.length)) + 1

/-- Go: `strings.Count`: the number of non-overlapping occurrences of `substr`, one more than the
number of runes for the empty `substr`.  An occurrence of a non-empty `substr` takes at least one
byte, so `len(s)` is fuel enough. -/
def Count (s substr : Bytes) : Nat :=
  if substr = [] then RuneCountInString s + 1 else countLoop substr s.length s

/-- The loop of `genSplit`, with `sepSave = 0`: at most `k` times, `s` is cut at the first
occurrence of `sep`; the loop ends early when there is none, and what is left is the last
element. -/
def splitLoop (sep : Bytes) : Nat → Bytes → List Bytes
  | 0, s => [s]
  | k + 1, s =>
    match Index s sep with
    | none => [s]
    | some m => s.take m :: splitLoop sep k (s.drop (m + sep.length))

/-- Go: `strings.Split(s, sep)`, which is `genSplit(s, sep, 0, -1)`: `explode` for the empty
separator; else `n = Count(s, sep) + 1`, capped at `len(s) + 1`, and the loop run `n - 1`
times. -/
def Split (s sep : Bytes) : List Bytes :=
  if sep = [] then explode s
  else
    let n := Count s sep + 1
    let n := if n > s.length + 1 then s.length + 1 else n
    splitLoop sep (n - 1) s

/-! ## Package path/filepath (Unix: the separator is `/`, there is no volume name) -/

/-- Go: `filepath.Base`. -/
def Base (path : Bytes) : Bytes :=
  if path = [] then str "." else
  let path := (path.reverse.dropWhile (fun c => c == 47)).reverse
  let path := (path.reverse.takeWhile (fun c => c != 47)).reverse
  if path = [] then str "/" else path

/-! ## Packages go/token and go/ast: comments and their positions -/

/-- The type `ast.Comment`: `Slash` is the position of the `/` that starts the comment, `Text` the
comment's text with its delimiter. -/
structure Comment where
  Slash : Nat
  Text : Bytes
deriving DecidableEq, Repr

/-- Go: `func (c *Comment) Pos() token.Pos { return c.Slash }`. -/
def Comment.Pos (c : Comment) : Nat := c.Slash

/-- Go: `func (c *Comment) End() token.Pos { return token.Pos(int(c.Slash) + len(c.Text)) }`. -/
def Comment.End (c : Comment) : Nat := c.Slash + c.Text.length

/-- The type `ast.CommentGroup`. -/
structure CommentGroup where
  List : List Comment
deriving DecidableEq, Repr

/-- The type `ast.File`, with the one field the program reads. -/
structure File where
  Comments : List CommentGroup
deriving DecidableEq, Repr

/-- The comment `c` stands in `source` where its position says: position `c.Slash` is the byte at
offset `c.Slash - 1`, the bytes from there on are the comment's text, and the comment ends within
the file. -/
def Located (source : Bytes) (c : Comment) : Prop :=
  1 ≤ c.Slash ∧ c.End ≤ source.length + 1 ∧
    (source.drop (c.Slash - 1)).take c.Text.length = c.Text

instance (source : Bytes) (c : Comment) : Decidable (Located source c) := by
  unfold Located
  infer_instance

/-! ## Package html/template

The program compiles its templates with `html/template` and the helper table `funcs`.  The engine
is a parameter of the rendering functions; `htmlTemplate` below is the engine for the templates
made of plain text and of the actions `{{ . }}` and `{{ f . ... . }}`. -/

/-- A template engine: `Parse` is `template.New(name).Funcs(funcs).Parse(text)` (`none`: an error,
on which `template.Must` panics); `Execute t data` is what `t.Execute(&sb, data)` has written to
the builder when it returns, and whether it returns an error. -/
structure Engine where
  Template : Type
  Parse : Bytes → Option Template
  Execute : Template → Bytes → Bytes × Bool

/-- The table `htmlReplacementTable` of html/template. -/
def htmlReplacementTable (c : Nat) : Option Bytes :=
  if c = 0 then some [0xEF, 0xBF, 0xBD]
  else if c = 34 then some (str "&#34;")
  else if c = 38 then some (str "&amp;")
  else if c = 39 then some (str "&#39;")
  else if c = 43 then some (str "&#43;")
  else if c = 60 then some (str "&lt;")
  else if c = 62 then some (str "&gt;")
  else none

/-- The escaper html/template appends to an action in HTML text (`htmlEscaper` on a plain string):
each rune with an entry in the table is replaced by the entry; the entries are all for bytes below
128, every other byte is copied. -/
def htmlEscaper (s : Bytes) : Bytes :=
  s.flatMap (fun c => (htmlReplacementTable c).getD [c])

/-- The helpers of the program's table `funcs` that take one string and are modelled here:
`basename` is `filepath.Base`, `strip` is `strings.TrimSpace`. -/
def funcs (name : Bytes) : Option (Bytes → Bytes) :=
  if name = str "basename" then some Base
  else if name = str "strip" then some TrimSpace
  else none

/-- The entry `split` of the program's table `funcs`: `path` is split on a single space, or on the
first of the separators when there is one. -/
def split (path : Bytes) (sep : List Bytes) : List Bytes :=
  let s := match sep with
    | [] => str " "
    | s0 :: _ => s0
  Split path s

/-- A node of a parsed template: literal text, the action `{{ . }}`, or a call of a helper of
`funcs` on `nargs` arguments, each of them the dot. -/
inductive Node where
  | text (s : Bytes)
  | dot
  | call (fn : Bytes) (nargs : Nat)
deriving DecidableEq, Repr

/-- The body of an action, between the delimiters: its words, separated by spaces or tabs, are a
single dot, or the name of a modelled helper followed by dots. -/
def parseAction (body : Bytes) : Option Node :=
  match (body.splitOnP (fun c => c == 32 || c == 9)).filter (fun w => w ≠ []) with
  | [] => none
  | [[46]] => some Node.dot
  | fn :: args =>
    if (funcs fn).isSome ∧ args.all (fun a => a == [46]) then some (Node.call fn args.length)
    else none

/-- The text node for `acc`, nothing when it is empty.  Text holding `<` is not modelled: it
would leave the HTML text context, in which the escaper above is the one applied. -/
def textNode (acc : Bytes) : Option (List Node) :=
  if 60 ∈ acc then none else if acc = [] then some [] else some [Node.text acc]

/-- The lexer and parser: text runs to the first `{{`, an action to the first `}}` after it.
`inAction` tells which of the two is being read and `acc` holds what has been read of it.  The
result is `none` for a template outside the modelled fragment, whether Go rejects it or not. -/
def parseNodes : Bool → Bytes → Bytes → Option (List Node)
  | false, acc, [] => textNode acc
  | true, _, [] => none
  | false, acc, [c] => textNode (acc ++ [c])
  | true, _, [_] => none
  | false, acc, c :: d :: s =>
    if c = 123 ∧ d = 123 then
      match textNode acc, parseNodes true [] s with
      | some t, some ns => some (t ++ ns)
      | _, _ => none
    else parseNodes false (acc ++ [c]) (d :: s)
  | true, acc, c :: d :: s =>
    if c = 125 ∧ d = 125 then
      match parseAction acc, parseNodes false [] s with
      | some n, some ns => some (n :: ns)
      | _, _ => none
    else parseNodes true (acc ++ [c]) (d :: s)

/-- Executes one node on the dot `data`: the bytes written, or `none` on an execution error (a
helper called on a number of arguments other than the one its Go function takes). -/
def execNode (data : Bytes) : Node → Option Bytes
  | Node.text s => some s
  | Node.dot => some (htmlEscaper data)
  | Node.call fn nargs =>
    match funcs fn with
    | some g => if nargs = 1 then some (htmlEscaper (g data)) else none
    | none => none

/-- Executes the nodes in order, writing as it goes; the first error stops the execution and
leaves what was written before it. -/
def execNodes (data : Bytes) : List Node → Bytes × Bool
  | [] => ([], false)
  | n :: ns =>
    match execNode data n with
    | none => ([], true)
    | some out => (out ++ (execNodes data ns).1, (execNodes data ns).2)

/-- The engine html/template with the table `funcs`, on the modelled fragment: `Parse` is `none`
for every template outside the fragment. -/
@[reducible] def htmlTemplate : Engine where
  Template := List Node
  Parse := parseNodes false []
  Execute := fun t data => execNodes data t

/-! ## The program -/

/-- Go: `lookupCommentLabel`: the comments of the file, group by group and comment by comment,
whose text without a leading `//` and without surrounding white space gives the label once a
`-BEGIN` suffix, or else once an `-END` suffix, is trimmed from it. -/
def lookupCommentLabel (label : Bytes) (f : File) : List Comment :=
  f.Comments.foldl (fun comments c =>
    c.List.foldl (fun comments cl =>
      let line := TrimPrefix cl.Text (str "//")
      let line := TrimSpace line
      if TrimSuffix line (str "-BEGIN") = label then comments ++ [cl]
      else if TrimSuffix line (str "-END") = label then comments ++ [cl]
      else comments) comments) []

/-- The test in the body of the loop of `lookupCommentLabel`, on one comment. -/
def matchesLabel (label : Bytes) (cl : Comment) : Bool :=
  let line := TrimPrefix cl.Text (str "//")
  let line := TrimSpace line
  decide (TrimSuffix line (str "-BEGIN") = label) || decide (TrimSuffix line (str "-END") = label)

/-- Go: `generateRowOutput`: `rd` is the sequence of lines the scanner delivers.  Each line is
executed into a fresh builder, whose content is appended to `lines` whether or not the execution
returned an error; the result is `strings.Join(lines, "\n")`.  `none`: `template.Must` panics
(with the engine `htmlTemplate`, also: the template is outside the modelled fragment). -/
def generateRowOutput (E : Engine) (row : Bytes) (rd : List Bytes) : Option Bytes :=
  match E.Parse row with
  | none => none
  | some tpl =>
    let lines := rd.foldl (fun lines text => lines ++ [(E.Execute tpl text).1]) []
    some (Join lines (str "\n"))

/-- Go: `generateColOutput`: as `generateRowOutput`, joined with `sep`. -/
def generateColOutput (E : Engine) (col sep : Bytes) (rd : List Bytes) : Option Bytes :=
  match E.Parse col with
  | none => none
  | some tpl =>
    let lines := rd.foldl (fun lines text => lines ++ [(E.Execute tpl text).1]) []
    some (Join lines sep)

/-- Go: `replaceCode`: `content[:s]`, then `code`, then `content[e-2:]`.  `none` stands for the
run-time panic of a slice expression out of range (`e - 2` negative or beyond `len(content)`, `s`
beyond the slice; an `s` beyond `len(content)` is counted as out of range as well). -/
def replaceCode (src : Bytes) (start «end» : Nat) (code : Bytes) : Option Bytes :=
  let content := src
  let s := start
  let e := «end»
  if s ≤ content.length ∧ 2 ≤ e ∧ e - 2 ≤ content.length then
    some (content.take s ++ code ++ content.drop (e - 2))
  else none

/-- The identity template `{{ . }}` of main's default mode. -/
def identityTemplate : Bytes := str "\x7b\x7b . \x7d\x7d"

/-- Lines 61 to 67 of `main`: the rendered block, by the row template when there is one, else by
the column template when there is one, else by the identity template in row mode. -/
def renderBlock (E : Engine) (row col colSep : Bytes) (rd : List Bytes) : Option Bytes :=
  if row ≠ [] then generateRowOutput E row rd
  else if col ≠ [] then generateColOutput E col colSep rd
  else generateRowOutput E identityTemplate rd

/-- Lines 69 to 71 of `main`: the text handed to the splice. -/
def spliceText (code : Bytes) : Bytes :=
  if code.length > 0 then code ++ str "\n" else code

/-- What a run that reaches the end of `main` has done: `code` is the rendered block, printed on
standard output; `written` is the content handed to `writeCode`, `none` when the splice and the
write-back are skipped. -/
structure Run where
  code : Bytes
  written : Option Bytes
deriving DecidableEq, Repr

/-- Go: `main`, from the parsed file on: `source` is the content read from the file and `f` what
`parser.ParseFile` made of it, `rd` the lines of the input.  `none`: the run panics. -/
def main (E : Engine) (source : Bytes) (f : File) (label row col colSep : Bytes)
    (rd : List Bytes) : Option Run :=
  let comments := lookupCommentLabel label f
  match renderBlock E row col colSep rd with
  | none => none
  | some code =>
    match comments with
    | [c0, c1] =>
      if c1.Pos > c0.End then
        match replaceCode source c0.End c1.Pos (spliceText code) with
        | none => none
        | some w => some ⟨code, some w⟩
      else some ⟨code, none⟩
    | _ => some ⟨code, none⟩

/-! ## Scenarios -/

/-- The bytes of `w` after its first `front` and before its last `back` bytes. -/
def between (w : Bytes) (front back : Nat) : Bytes :=
  (w.drop front).take (w.length - front - back)

/-- A source with the two markers of label `LBL` on consecutive lines. -/
def lblSource : Bytes := str "package p\n\n// LBL-BEGIN\n// LBL-END\n"

/-- The BEGIN comment of `lblSource`: it starts at offset 11. -/
def lblBegin : Comment := ⟨12, str "// LBL-BEGIN"⟩

/-- The END comment of `lblSource`: it starts at offset 24. -/
def lblEnd : Comment := ⟨25, str "// LBL-END"⟩

/-- The comments of `lblSource` as the parser groups them: adjacent comments make one group. -/
def lblFile : File := ⟨[⟨[lblBegin, lblEnd]⟩]⟩

/-- The row template `item: {{ . }}`. -/
def itemTemplate : Bytes := str "item: \x7b\x7b . \x7d\x7d"

/-- A source in which the END marker of label `L` comes before the BEGIN marker. -/
def reversedSource : Bytes := str "package p\n\n// L-END\nvar x int\n// L-BEGIN\n"

/-- The comments of `reversedSource`: the END comment at offset 11, the BEGIN comment at
offset 30, each in a group of its own. -/
def reversedFile : File := ⟨[⟨[⟨12, str "// L-END"⟩]⟩, ⟨[⟨31, str "// L-BEGIN"⟩]⟩]⟩

/-- A source with one marker of label `LBL` only. -/
def loneSource : Bytes := str "package p\n\n// LBL-BEGIN\n"

/-- The comments of `loneSource`. -/
def loneFile : File := ⟨[⟨[lblBegin]⟩]⟩

/-- A source in which three comments match the label `LBL`: a BEGIN and END pair, then a second
END marker. -/
def tripleSource : Bytes := str "package p\n\n// LBL-BEGIN\n// LBL-END\n// LBL-END\n"

/-- The third matching comment of `tripleSource`: it starts at offset 35. -/
def lblEnd2 : Comment := ⟨36, str "// LBL-END"⟩

/-- The comments of `tripleSource`, in one group. -/
def tripleFile : File := ⟨[⟨[lblBegin, lblEnd, lblEnd2]⟩]⟩

/-- A source with one marker of label `FOO`, the END marker, and before it a comment that is the
bare label. -/
def bareSource : Bytes := str "package p\n\n// FOO\nvar x int\n// FOO-END\n"

/-- The comment `// FOO` of `bareSource`: it starts at offset 11. -/
def bareLabel : Comment := ⟨12, str "// FOO"⟩

/-- The comment `// FOO-END` of `bareSource`: it starts at offset 28. -/
def bareEnd : Comment := ⟨29, str "// FOO-END"⟩

/-- The comments of `bareSource`, each in a group of its own. -/
def bareFile : File := ⟨[⟨[bareLabel]⟩, ⟨[bareEnd]⟩]⟩

/-- A row template whose action fails on every line, after the text `x` is written: `basename`
is called without argument. -/
def failingTemplate : Bytes := str "x\x7b\x7b basename \x7d\x7d"

/-! ## Lemmas on the library functions -/

theorem foldl_append_singleton {α β : Type} (g : α → β) (rd : List α) (acc : List β) :
    rd.foldl (fun lines text => lines ++ [g text]) acc = acc ++ rd.map g := by
  induction rd generalizing acc with
  | nil => simp
  | cons x xs ih => simp [ih]

theorem foldl_sep_eq (sep : Bytes) (rest : List Bytes) (a : Bytes) :
    rest.foldl (fun b s => b ++ sep ++ s) a = a ++ (rest.map (fun s => sep ++ s)).flatten := by
  induction rest generalizing a with
  | nil => simp
  | cons x xs ih =>
    rw [List.foldl_cons, ih]
    simp [List.append_assoc]

theorem intercalate_cons_cons (sep a b : Bytes) (rest : List Bytes) :
    List.intercalate sep (a :: b :: rest) = a ++ sep ++ List.intercalate sep (b :: rest) := by
  simp [List.intercalate, List.intersperse, List.append_assoc]

theorem intercalate_eq (sep a : Bytes) (rest : List Bytes) :
    List.intercalate sep (a :: rest) = a ++ (rest.map (fun s => sep ++ s)).flatten := by
  induction rest generalizing a with
  | nil => simp [List.intercalate]
  | cons x xs ih => rw [intercalate_cons_cons, ih]; simp [List.append_assoc]

/-- The function `strings.Join` is the intercalation of the separator. -/
theorem Join_eq_intercalate (xs : List Bytes) (sep : Bytes) :
    Join xs sep = List.intercalate sep xs := by
  match xs with
  | [] => simp [Join, List.intercalate]
  | [a] => simp [Join, List.intercalate]
  | a :: b :: rest =>
    rw [intercalate_eq]
    exact foldl_sep_eq sep (b :: rest) a

theorem length_intercalate (sep : Bytes) (xs : List Bytes) :
    (List.intercalate sep xs).length + sep.length
      = (xs.map List.length).sum + xs.length * sep.length + (if xs = [] then sep.length else 0) := by
  match xs with
  | [] => simp [List.intercalate]
  | a :: rest =>
    rw [intercalate_eq]
    induction rest generalizing a with
    | nil => simp
    | cons x xs ih =>
      have h := ih x
      simp only [List.map_cons, List.flatten_cons, List.length_append, List.sum_cons,
        List.length_cons, if_neg (List.cons_ne_nil _ _), Nat.add_zero] at h ⊢
      nlinarith [h]

theorem replaceCode_eq (content : Bytes) (s e : Nat) (t : Bytes)
    (hs : s ≤ content.length) (he2 : 2 ≤ e) (he : e ≤ content.length + 2) :
    replaceCode content s e t = some (content.take s ++ t ++ content.drop (e - 2)) := by
  unfold replaceCode
  simp only
  rw [if_pos]
  exact ⟨hs, he2, by omega⟩

theorem replaceCode_some (content : Bytes) (s e : Nat) (t r : Bytes)
    (h : replaceCode content s e t = some r) :
    s ≤ content.length ∧ 2 ≤ e ∧ e - 2 ≤ content.length ∧
      r = content.take s ++ t ++ content.drop (e - 2) := by
  unfold replaceCode at h
  simp only at h
  split at h
  · rename_i hb
    simp only [Option.some.injEq] at h
    exact ⟨hb.1, hb.2.1, hb.2.2, h.symm⟩
  · exact absurd h (by simp)

theorem take_succ_of_lt (l : Bytes) (n : Nat) (h : n < l.length) :
    l.take (n + 1) = l.take n ++ [l[n]] := by
  rw [List.take_succ, List.getElem?_eq_getElem h]
  rfl

theorem drop_of_lt (l : Bytes) (n : Nat) (h : n < l.length) :
    l.drop n = l[n] :: l.drop (n + 1) := by
  simp

/-- When the two comments found are in position, `main` reaches the write-back with the content
`replaceCode` builds from the text handed to the splice. -/
theorem main_of_pair (E : Engine) (source : Bytes) (f : File) (label row col colSep : Bytes)
    (rd : List Bytes) (code : Bytes) (c0 c1 : Comment)
    (hlook : lookupCommentLabel label f = [c0, c1]) (hord : c0.End < c1.Pos)
    (hcode : renderBlock E row col colSep rd = some code) :
    main E source f label row col colSep rd
      = (replaceCode source c0.End c1.Pos (spliceText code)).map (fun w => ⟨code, some w⟩) := by
  unfold main
  simp only [hcode, hlook, gt_iff_lt, hord, if_true]
  cases replaceCode source c0.End c1.Pos (spliceText code) <;> rfl

/-- With any number of found comments other than two, `main` skips the splice. -/
theorem main_of_length_ne_two (E : Engine) (source : Bytes) (f : File)
    (label row col colSep : Bytes) (rd : List Bytes) (code : Bytes)
    (hlen : (lookupCommentLabel label f).length ≠ 2)
    (hcode : renderBlock E row col colSep rd = some code) :
    main E source f label row col colSep rd = some ⟨code, none⟩ := by
  unfold main
  simp only [hcode]
  match hl : lookupCommentLabel label f with
  | [] => rfl
  | [_] => rfl
  | [_, _] => simp [hl] at hlen
  | _ :: _ :: _ :: _ => rfl

theorem HasSuffix_iff (s suf : Bytes) : HasSuffix s suf = true ↔ suf <:+ s := by
  unfold HasSuffix
  rw [List.suffix_iff_eq_drop]
  simp only [Bool.and_eq_true, decide_eq_true_eq, beq_iff_eq]
  constructor
  · rintro ⟨-, h⟩
    exact h.symm
  · intro h
    refine ⟨?_, h.symm⟩
    have hl := congrArg List.length h
    simp only [List.length_drop] at hl
    omega

/-- The function `strings.TrimSuffix` gives `label` on exactly two kinds of text: the label
followed by the suffix, and the label itself when it does not end in the suffix. -/
theorem TrimSuffix_eq_iff (line suf label : Bytes) :
    TrimSuffix line suf = label ↔
      line = label ++ suf ∨ (line = label ∧ ¬ suf <:+ line) := by
  unfold TrimSuffix
  by_cases h : HasSuffix line suf = true
  · rw [if_pos h]
    have hsuf := (HasSuffix_iff line suf).mp h
    have hdrop := List.suffix_iff_eq_drop.mp hsuf
    have hsplit := List.take_append_drop (line.length - suf.length) line
    rw [← hdrop] at hsplit
    constructor
    · intro ht
      left
      rw [← ht]
      exact hsplit.symm
    · rintro (hl | ⟨-, hn⟩)
      · subst hl
        exact List.append_cancel_right hsplit
      · exact absurd hsuf hn
  · rw [if_neg h]
    have hn : ¬ suf <:+ line := fun hs => h ((HasSuffix_iff line suf).mpr hs)
    constructor
    · intro ht
      exact Or.inr ⟨ht, hn⟩
    · rintro (hl | ⟨hl, -⟩)
      · exact absurd ⟨label, hl.symm⟩ hn
      · exact hl

/-- The comments `lookupCommentLabel` keeps: the text without a leading `//` and without
surrounding white space is the label followed by `-BEGIN`, the label followed by `-END`, or
the label alone. -/
theorem matchesLabel_iff (label : Bytes) (cl : Comment) :
    matchesLabel label cl = true ↔
      TrimSpace (TrimPrefix cl.Text (str "//")) = label ++ str "-BEGIN" ∨
      TrimSpace (TrimPrefix cl.Text (str "//")) = label ++ str "-END" ∨
      TrimSpace (TrimPrefix cl.Text (str "//")) = label := by
  unfold matchesLabel
  simp only [Bool.or_eq_true, decide_eq_true_eq, TrimSuffix_eq_iff]
  constructor
  · rintro ((h | ⟨h, -⟩) | (h | ⟨h, -⟩))
    · exact Or.inl h
    · exact Or.inr (Or.inr h)
    · exact Or.inr (Or.inl h)
    · exact Or.inr (Or.inr h)
  · rintro (h | h | h)
    · exact Or.inl (Or.inl h)
    · exact Or.inr (Or.inl h)
    · by_cases hb : str "-BEGIN" <:+ TrimSpace (TrimPrefix cl.Text (str "//"))
      · refine Or.inr (Or.inr ⟨h, fun he => ?_⟩)
        have hsub : str "-END" <:+ str "-BEGIN" :=
          List.suffix_of_suffix_length_le he hb (by decide)
        exact absurd hsub (by decide)
      · exact Or.inl (Or.inr ⟨h, hb⟩)

theorem lookup_inner_foldl (label : Bytes) (l : List Comment) (acc : List Comment) :
    l.foldl (fun comments cl =>
      if TrimSuffix (TrimSpace (TrimPrefix cl.Text (str "//"))) (str "-BEGIN") = label
      then comments ++ [cl]
      else if TrimSuffix (TrimSpace (TrimPrefix cl.Text (str "//"))) (str "-END") = label
      then comments ++ [cl]
      else comments) acc = acc ++ l.filter (matchesLabel label) := by
  induction l generalizing acc with
  | nil => simp
  | cons cl l ih =>
    rw [List.foldl_cons, ih, List.filter_cons]
    by_cases h1 : TrimSuffix (TrimSpace (TrimPrefix cl.Text (str "//"))) (str "-BEGIN") = label
    · simp [matchesLabel, h1]
    · by_cases h2 : TrimSuffix (TrimSpace (TrimPrefix cl.Text (str "//"))) (str "-END") = label
      · simp [matchesLabel, h1, h2]
      · simp [matchesLabel, h1, h2]

/-- The function `lookupCommentLabel` returns, in document order, the comments of the file that
pass the test of its loop body. -/
theorem lookupCommentLabel_eq_filter (label : Bytes) (f : File) :
    lookupCommentLabel label f
      = (f.Comments.flatMap (fun c => c.List)).filter (matchesLabel label) := by
  unfold lookupCommentLabel
  have key : ∀ (gs : List CommentGroup) (acc : List Comment),
      gs.foldl (fun comments c =>
        c.List.foldl (fun comments cl =>
          let line := TrimPrefix cl.Text (str "//")
          let line := TrimSpace line
          if TrimSuffix line (str "-BEGIN") = label then comments ++ [cl]
          else if TrimSuffix line (str "-END") = label then comments ++ [cl]
          else comments) comments) acc
        = acc ++ (gs.flatMap (fun c => c.List)).filter (matchesLabel label) := by
    intro gs
    induction gs with
    | nil => intro acc; simp
    | cons g gs ih =>
      intro acc
      rw [List.foldl_cons, List.flatMap_cons, List.filter_append, ← List.append_assoc,
        ← lookup_inner_foldl label g.List acc]
      exact ih _
  simpa using key f.Comments []

theorem explodeLoop_flatten (k : Nat) (s : Bytes) : (explodeLoop k s).flatten = s := by
  induction k generalizing s with
  | zero => simp [explodeLoop]
  | succ k ih => simp [explodeLoop, ih]

theorem explode_flatten (s : Bytes) : (explode s).flatten = s := by
  unfold explode
  by_cases h : RuneCountInString s > 0
  · simp only [h, if_true]
    exact explodeLoop_flatten _ s
  · simp only [h, if_false]
    cases s with
    | nil => rfl
    | cons c s =>
      exfalso
      apply h
      unfold RuneCountInString
      simp [runeCountLoop]

theorem Join_nil_sep (xs : List Bytes) : Join xs [] = xs.flatten := by
  rw [Join_eq_intercalate]
  cases xs with
  | nil => rfl
  | cons a rest =>
    rw [intercalate_eq]
    simp

theorem Index_some_occurs (s sep : Bytes) (m : Nat) (h : Index s sep = some m) :
    sep <+: s.drop m := by
  induction s generalizing m with
  | nil =>
    unfold Index at h
    split at h
    · rename_i hs
      simp [hs]
    · exact absurd h (by simp)
  | cons c s ih =>
    unfold Index at h
    split at h
    · rename_i hp
      simp only [Option.some.injEq] at h
      subst h
      exact List.isPrefixOf_iff_prefix.mp hp
    · cases hi : Index s sep with
      | none => simp [hi] at h
      | some i =>
        simp only [hi, Option.map_some', Option.some.injEq] at h
        subst h
        exact ih i hi

theorem Index_none_drop (s sep : Bytes) (h : Index s sep = none) (k : Nat) :
    ¬ sep <+: s.drop k := by
  induction s generalizing k with
  | nil =>
    unfold Index at h
    split at h
    · exact absurd h (by simp)
    · rename_i hs
      intro hp
      simp only [List.drop_nil, List.prefix_nil] at hp
      exact hs hp
  | cons c s ih =>
    unfold Index at h
    split at h
    · exact absurd h (by simp)
    · rename_i hp
      have hi : Index s sep = none := by
        cases hi : Index s sep with
        | none => rfl
        | some i => simp [hi] at h
      cases k with
      | zero =>
        intro hpre
        exact hp (List.isPrefixOf_iff_prefix.mpr hpre)
      | succ k => exact ih hi k

theorem Index_some_first (s sep : Bytes) (m : Nat) (h : Index s sep = some m) (k : Nat)
    (hk : k < m) : ¬ sep <+: s.drop k := by
  induction s generalizing m k with
  | nil =>
    unfold Index at h
    split at h
    · simp only [Option.some.injEq] at h
      omega
    · exact absurd h (by simp)
  | cons c s ih =>
    unfold Index at h
    split at h
    · simp only [Option.some.injEq] at h
      omega
    · rename_i hp
      cases hi : Index s sep with
      | none => simp [hi] at h
      | some i =>
        simp only [hi, Option.map_some', Option.some.injEq] at h
        subst h
        cases k with
        | zero =>
          intro hpre
          exact hp (List.isPrefixOf_iff_prefix.mpr hpre)
        | succ k => exact ih i hi k (by omega)

/-- No occurrence of a non-empty separator lies in front of the first one. -/
theorem Index_take_none (s sep : Bytes) (m : Nat) (hsep : sep ≠ [])
    (h : Index s sep = some m) : Index (s.take m) sep = none := by
  cases hk : Index (s.take m) sep with
  | none => rfl
  | some k =>
    exfalso
    have hpre := Index_some_occurs (s.take m) sep k hk
    have hlen := hpre.length_le
    have hpos : 0 < sep.length := List.length_pos.mpr hsep
    simp only [List.length_drop, List.length_take] at hlen
    have hkm : k < m := by omega
    apply Index_some_first s sep m h k hkm
    rw [List.drop_take] at hpre
    exact hpre.trans (List.take_prefix _ _)

theorem splitLoop_ne_nil (sep : Bytes) (k : Nat) (s : Bytes) : splitLoop sep k s ≠ [] := by
  cases k with
  | zero => simp [splitLoop]
  | succ k =>
    unfold splitLoop
    split <;> simp

/-- The elements of the loop of `genSplit`, with the separator between them, are the string. -/
theorem splitLoop_intercalate (sep : Bytes) (k : Nat) (s : Bytes) :
    List.intercalate sep (splitLoop sep k s) = s := by
  induction k generalizing s with
  | zero => simp [splitLoop, List.intercalate]
  | succ k ih =>
    unfold splitLoop
    cases hi : Index s sep with
    | none => simp [List.intercalate]
    | some m =>
      simp only
      obtain ⟨b, tl, hb⟩ := List.exists_cons_of_ne_nil
        (splitLoop_ne_nil sep k (s.drop (m + sep.length)))
      have hrest := ih (s.drop (m + sep.length))
      rw [hb] at hrest ⊢
      rw [intercalate_cons_cons, hrest]
      obtain ⟨t, ht⟩ := Index_some_occurs s sep m hi
      have hdrop : s.drop (m + sep.length) = t := by
        rw [← List.drop_drop, ← ht]
        simp
      rw [hdrop, List.append_assoc, ht]
      exact List.take_append_drop m s

theorem countLoop_le (sep : Bytes) (hsep : sep ≠ []) (fuel : Nat) (s : Bytes) :
    countLoop sep fuel s ≤ s.length := by
  induction fuel generalizing s with
  | zero => simp [countLoop]
  | succ fuel ih =>
    unfold countLoop
    cases hi : Index s sep with
    | none => simp
    | some i =>
      simp only
      have hpre := (Index_some_occurs s sep i hi).length_le
      have hpos : 0 < sep.length := List.length_pos.mpr hsep
      have := ih (s.drop (i + sep.length))
      simp only [List.length_drop] at this hpre
      omega

/-- Run as many times as `Count` says, the loop of `genSplit` leaves no occurrence of the
separator in an element. -/
theorem splitLoop_countLoop (sep : Bytes) (hsep : sep ≠ []) (fuel : Nat) (s : Bytes)
    (hfuel : s.length ≤ fuel) :
    ∀ piece ∈ splitLoop sep (countLoop sep fuel s) s, Index piece sep = none := by
  induction fuel generalizing s with
  | zero =>
    intro piece hp
    have hs : s = [] := List.length_eq_zero.mp (by omega)
    subst hs
    simp only [countLoop, splitLoop, List.mem_singleton] at hp
    subst hp
    simp [Index, hsep]
  | succ fuel ih =>
    intro piece hp
    unfold countLoop at hp
    cases hi : Index s sep with
    | none =>
      simp only [hi, splitLoop, List.mem_singleton] at hp
      subst hp
      exact hi
    | some i =>
      simp only [hi] at hp
      unfold splitLoop at hp
      simp only [hi, List.mem_cons] at hp
      rcases hp with hp | hp
      · subst hp
        exact Index_take_none s sep i hsep hi
      · have hpre := (Index_some_occurs s sep i hi).length_le
        have hpos : 0 < sep.length := List.length_pos.mpr hsep
        simp only [List.length_drop] at hpre
        exact ih (s.drop (i + sep.length)) (by simp only [List.length_drop]; omega) piece hp

/-- The elements of `strings.Split` joined with the separator are the string. -/
theorem Split_Join (s sep : Bytes) : Join (Split s sep) sep = s := by
  unfold Split
  by_cases h : sep = []
  · rw [if_pos h, h, Join_nil_sep]
    exact explode_flatten s
  · rw [if_neg h, Join_eq_intercalate]
    exact splitLoop_intercalate sep _ s

/-- No element of `strings.Split` holds an occurrence of a non-empty separator. -/
theorem Split_no_sep (s sep : Bytes) (hsep : sep ≠ []) :
    ∀ piece ∈ Split s sep, Index piece sep = none := by
  unfold Split Count
  rw [if_neg hsep]
  simp only [if_neg hsep]
  have hle := countLoop_le sep hsep s.length s
  rw [if_neg (by omega), Nat.add_sub_cancel]
  exact splitLoop_countLoop sep hsep s.length s (le_refl _)

theorem runeSize_pos (c : Nat) (s : Bytes) : 1 ≤ runeSize (c :: s) := by
  rw [runeSize]
  by_cases h0 : c < 0xC2 ∨ 0xF4 < c
  · rw [if_pos h0]
  · rw [if_neg h0]
    lift_lets
    intro sz lo hi
    clear_value sz lo hi
    by_cases h1 : s.length + 1 < sz
    · rw [if_pos h1]
    · rw [if_neg h1]
      cases s with
      | nil => exact le_refl _
      | cons s1 rest1 =>
        simp only
        by_cases h2 : s1 < lo ∨ hi < s1
        · rw [if_pos h2]
        · rw [if_neg h2]
          by_cases h3 : sz ≤ 2
          · rw [if_pos h3]; omega
          · rw [if_neg h3]
            cases rest1 with
            | nil => exact le_refl _
            | cons s2 rest2 =>
              simp only
              by_cases h4 : s2 < 0x80 ∨ 0xBF < s2
              · rw [if_pos h4]
              · rw [if_neg h4]
                by_cases h5 : sz ≤ 3
                · rw [if_pos h5]; omega
                · rw [if_neg h5]
                  cases rest2 with
                  | nil => exact le_refl _
                  | cons s3 rest3 =>
                    simp only
                    by_cases h6 : s3 < 0x80 ∨ 0xBF < s3
                    · rw [if_pos h6]
                    · rw [if_neg h6]; omega

/-- The fuel of `RuneCountInString` is enough: more fuel than the length of the string does not
change the count. -/
theorem runeCountLoop_fuel (f1 f2 : Nat) (s : Bytes) (h1 : s.length ≤ f1) (h2 : s.length ≤ f2) :
    runeCountLoop f1 s = runeCountLoop f2 s := by
  induction f1 generalizing f2 s with
  | zero =>
    have hs : s = [] := List.length_eq_zero.mp (by omega)
    subst hs
    cases f2 <;> rfl
  | succ f1 ih =>
    cases s with
    | nil => cases f2 <;> rfl
    | cons c s =>
      cases f2 with
      | zero => simp at h2
      | succ f2 =>
        have hpos := runeSize_pos c s
        simp only [runeCountLoop]
        congr 1
        apply ih
        · simp only [List.length_drop, List.length_cons] at h1 ⊢
          omega
        · simp only [List.length_drop, List.length_cons] at h2 ⊢
          omega

/-- The fuel of `Count` is enough: more fuel than the length of the string does not change the
count of the occurrences of a non-empty separator. -/
theorem countLoop_fuel (sep : Bytes) (hsep : sep ≠ []) (f1 f2 : Nat) (s : Bytes)
    (h1 : s.length ≤ f1) (h2 : s.length ≤ f2) :
    countLoop sep f1 s = countLoop sep f2 s := by
  induction f1 generalizing f2 s with
  | zero =>
    have hs : s = [] := List.length_eq_zero.mp (by omega)
    subst hs
    cases f2 with
    | zero => rfl
    | succ f2 => simp [countLoop, Index, hsep]
  | succ f1 ih =>
    cases f2 with
    | zero =>
      have hs : s = [] := List.length_eq_zero.mp (by omega)
      subst hs
      simp [countLoop, Index, hsep]
    | succ f2 =>
      unfold countLoop
      cases hi : Index s sep with
      | none => rfl
      | some i =>
        simp only
        congr 1
        have hpre := (Index_some_occurs s sep i hi).length_le
        have hpos : 0 < sep.length := List.length_pos.mpr hsep
        simp only [List.length_drop] at hpre
        apply ih
        · simp only [List.length_drop]
          omega
        · simp only [List.length_drop]
          omega

theorem RuneCountInString_cons (c : Nat) (s : Bytes) :
    RuneCountInString (c :: s)
      = RuneCountInString ((c :: s).drop (runeSize (c :: s))) + 1 := by
  have hpos := runeSize_pos c s
  unfold RuneCountInString
  simp only [List.length_cons, runeCountLoop]
  congr 1
  apply runeCountLoop_fuel
  · simp only [List.length_drop, List.length_cons]
    omega
  · exact le_refl _

/-- The function `explode` cuts off the first rune of a non-empty string and explodes the
rest. -/
theorem explode_cons (c : Nat) (s : Bytes) :
    explode (c :: s)
      = (c :: s).take (runeSize (c :: s)) :: explode ((c :: s).drop (runeSize (c :: s))) := by
  have hcount := RuneCountInString_cons c s
  cases hm : RuneCountInString ((c :: s).drop (runeSize (c :: s))) with
  | zero =>
    have hrest : (c :: s).drop (runeSize (c :: s)) = [] := by
      cases hr : (c :: s).drop (runeSize (c :: s)) with
      | nil => rfl
      | cons a t =>
        rw [hr, RuneCountInString_cons] at hm
        exact absurd hm (by omega)
    have htake : (c :: s).take (runeSize (c :: s)) = c :: s := by
      have := List.take_append_drop (runeSize (c :: s)) (c :: s)
      rw [hrest, List.append_nil] at this
      exact this
    rw [hm] at hcount
    rw [htake, hrest]
    unfold explode
    simp only [hcount]
    rfl
  | succ m =>
    rw [hm] at hcount
    unfold explode
    simp only [hcount, hm, gt_iff_lt, Nat.zero_lt_succ, if_true, Nat.add_sub_cancel]
    rfl

theorem Count_of_none (s sep : Bytes) (hsep : sep ≠ []) (h : Index s sep = none) :
    Count s sep = 0 := by
  unfold Count
  rw [if_neg hsep]
  cases hl : s.length with
  | zero => rfl
  | succ l => simp [countLoop, h]

theorem Count_of_some (s sep : Bytes) (hsep : sep ≠ []) (m : Nat) (h : Index s sep = some m) :
    Count s sep = Count (s.drop (m + sep.length)) sep + 1 := by
  have hpre := (Index_some_occurs s sep m h).length_le
  have hpos : 0 < sep.length := List.length_pos.mpr hsep
  simp only [List.length_drop] at hpre
  unfold Count
  rw [if_neg hsep, if_neg hsep]
  cases hl : s.length with
  | zero => omega
  | succ l =>
    simp only [countLoop, h]
    congr 1
    apply countLoop_fuel sep hsep
    · simp only [List.length_drop]
      omega
    · exact le_refl _

theorem Split_eq_splitLoop (s sep : Bytes) (hsep : sep ≠ []) :
    Split s sep = splitLoop sep (Count s sep) s := by
  have hle : Count s sep ≤ s.length := by
    unfold Count
    rw [if_neg hsep]
    exact countLoop_le sep hsep s.length s
  unfold Split
  rw [if_neg hsep]
  simp only
  rw [if_neg (by omega), Nat.add_sub_cancel]

/-- The function `strings.Split` with a non-empty separator: the string itself when the
separator does not occur, else what stands before the first occurrence, and the split of what
stands behind it. -/
theorem Split_unfold (s sep : Bytes) (hsep : sep ≠ []) :
    Split s sep = match Index s sep with
      | none => [s]
      | some m => s.take m :: Split (s.drop (m + sep.length)) sep := by
  rw [Split_eq_splitLoop s sep hsep]
  cases hi : Index s sep with
  | none =>
    rw [Count_of_none s sep hsep hi]
    rfl
  | some m =>
    rw [Count_of_some s sep hsep m hi]
    simp only [splitLoop, hi]
    rw [Split_eq_splitLoop _ sep hsep]

/-- With a separator of one byte, `strings.Split` is the function `List.splitOn` of the
library. -/
theorem Split_single (c : Nat) (s : Bytes) : Split s [c] = s.splitOn c := by
  have hsep : [c] ≠ ([] : Bytes) := by simp
  induction s with
  | nil => rfl
  | cons x xs ih =>
    rw [Split_unfold _ _ hsep, List.splitOn, List.splitOnP_cons]
    have hxs := Split_unfold xs [c] hsep
    rw [ih, List.splitOn] at hxs
    by_cases hx : x = c
    · subst hx
      simp only [Index, List.isPrefixOf, beq_self_eq_true, Bool.and_self, if_true]
      simp only [List.take_zero, Nat.zero_add, List.length_singleton, List.drop_succ_cons,
        List.drop_zero]
      rw [ih, List.splitOn]
    · have hb : (x == c) = false := by simpa using hx
      have hb2 : (c == x) = false := by simpa using fun h => hx h.symm
      simp only [Index, List.isPrefixOf, hb2, Bool.false_and, hb]
      simp only [Bool.false_eq_true, if_false]
      rw [hxs]
      cases hi : Index xs [c] with
      | none => simp
      | some m =>
        simp only [Option.map_some', List.modifyHead, List.take_succ_cons,
          List.length_singleton, List.drop_succ_cons]

theorem generateRowOutput_eq (E : Engine) (row : Bytes) (rd : List Bytes) (tpl : E.Template)
    (h : E.Parse row = some tpl) :
    generateRowOutput E row rd
      = some (List.intercalate (str "\n") (rd.map (fun l => (E.Execute tpl l).1))) := by
  unfold generateRowOutput
  rw [h]
  simp only [foldl_append_singleton, List.nil_append, Join_eq_intercalate]

theorem generateColOutput_eq (E : Engine) (col sep : Bytes) (rd : List Bytes) (tpl : E.Template)
    (h : E.Parse col = some tpl) :
    generateColOutput E col sep rd
      = some (List.intercalate sep (rd.map (fun l => (E.Execute tpl l).1))) := by
  unfold generateColOutput
  rw [h]
  simp only [foldl_append_singleton, List.nil_append, Join_eq_intercalate]

theorem htmlEscaper_of_plain (l : Bytes) (h : ∀ c ∈ l, c ∉ [0, 34, 38, 39, 43, 60, 62]) :
    htmlEscaper l = l := by
  induction l with
  | nil => rfl
  | cons a l ih =>
    have ha := h a (List.mem_cons_self a l)
    simp only [List.mem_cons, List.mem_singleton, List.not_mem_nil, or_false, not_or] at ha
    obtain ⟨h0, h1, h2, h3, h4, h5, h6⟩ := ha
    have hl := ih (fun c hc => h c (List.mem_cons_of_mem a hc))
    unfold htmlEscaper at hl ⊢
    rw [List.flatMap_cons, hl]
    simp [htmlReplacementTable, h0, h1, h2, h3, h4, h5, h6]

/-! ## The claims -/

/-- C1 (as amended): when the label has a correctly placed pair of comments in the source, the
content the run writes back is: the source up to the end of the BEGIN comment, the one byte that
follows the BEGIN comment in the source, the text handed to the splice (the rendered block and
one newline when the block is not empty, nothing when it is empty), the one byte that precedes
the END comment in the source, and the source from the start of the END comment on. -/
theorem main_splice_frame (E : Engine) (source : Bytes) (f : File)
    (label row col colSep : Bytes) (rd : List Bytes) (code : Bytes) (b e : Comment)
    (hlook : lookupCommentLabel label f = [b, e]) (hord : b.End < e.Pos)
    (hb : Located source b) (he : Located source e)
    (hcode : renderBlock E row col colSep rd = some code) :
    ∃ x y, source[b.End - 1]? = some x ∧ source[e.Pos - 2]? = some y ∧
      main E source f label row col colSep rd
        = some ⟨code, some (source.take (b.End - 1) ++ x :: (spliceText code)
            ++ y :: source.drop (e.Pos - 1))⟩ := by
  obtain ⟨hb1, -, -⟩ := hb
  obtain ⟨-, he2, -⟩ := he
  have hbe : 1 ≤ b.End := by unfold Comment.End; omega
  have hep : e.Pos ≤ source.length + 1 := by
    unfold Comment.End at he2; unfold Comment.Pos; omega
  have hx : b.End - 1 < source.length := by omega
  have hy : e.Pos - 2 < source.length := by omega
  refine ⟨source[b.End - 1], source[e.Pos - 2], List.getElem?_eq_getElem hx,
    List.getElem?_eq_getElem hy, ?_⟩
  rw [main_of_pair E source f label row col colSep rd code b e hlook hord hcode,
    replaceCode_eq source b.End e.Pos _ (by omega) (by omega) (by omega)]
  have h1 : source.take b.End = source.take (b.End - 1) ++ [source[b.End - 1]] := by
    have := take_succ_of_lt source (b.End - 1) hx
    rwa [Nat.sub_add_cancel hbe] at this
  have h2 : source.drop (e.Pos - 2) = source[e.Pos - 2] :: source.drop (e.Pos - 1) := by
    have := drop_of_lt source (e.Pos - 2) hy
    rwa [show e.Pos - 2 + 1 = e.Pos - 1 by omega] at this
  rw [h1, h2]
  simp only [Option.map_some', List.append_assoc, List.singleton_append, List.cons_append,
    List.nil_append]

/-- Witness of C1 on the source with the two `LBL` markers on consecutive lines. -/
theorem main_splice_frame_witness :
    lookupCommentLabel (str "LBL") lblFile = [lblBegin, lblEnd] ∧ lblBegin.End < lblEnd.Pos ∧
    Located lblSource lblBegin ∧ Located lblSource lblEnd ∧
    renderBlock htmlTemplate itemTemplate [] (str ",") [str "a", str "b"]
      = some (str "item: a\nitem: b") ∧
    ∃ x y, lblSource[lblBegin.End - 1]? = some x ∧ lblSource[lblEnd.Pos - 2]? = some y ∧
      main htmlTemplate lblSource lblFile (str "LBL") itemTemplate [] (str ",") [str "a", str "b"]
        = some ⟨str "item: a\nitem: b", some (lblSource.take (lblBegin.End - 1)
            ++ x :: (spliceText (str "item: a\nitem: b"))
            ++ y :: lblSource.drop (lblEnd.Pos - 1))⟩ :=
  ⟨by decide, by decide, by decide, by decide, by decide,
    main_splice_frame htmlTemplate lblSource lblFile (str "LBL") itemTemplate [] (str ",")
      [str "a", str "b"] (str "item: a\nitem: b") lblBegin lblEnd
      (by decide) (by decide) (by decide) (by decide) (by decide)⟩

/-- Counterexample to C1 as stated: on the source with the two `LBL` markers on consecutive
lines, the bytes of the written content between the end of the BEGIN comment and the start of the
END comment are a newline, the rendered block, and two newlines: not the rendered block followed
by one newline. -/
theorem main_splice_interior_counterexample :
    lookupCommentLabel (str "LBL") lblFile = [lblBegin, lblEnd] ∧ lblBegin.End < lblEnd.Pos ∧
    Located lblSource lblBegin ∧ Located lblSource lblEnd ∧
    main htmlTemplate lblSource lblFile (str "LBL") itemTemplate [] (str ",") [str "a", str "b"]
      = some ⟨str "item: a\nitem: b",
          some (str "package p\n\n// LBL-BEGIN\nitem: a\nitem: b\n\n// LBL-END\n")⟩ ∧
    between (str "package p\n\n// LBL-BEGIN\nitem: a\nitem: b\n\n// LBL-END\n")
        (lblBegin.End - 1) (lblSource.length - (lblEnd.Pos - 1))
      = str "\nitem: a\nitem: b\n\n" ∧
    str "\nitem: a\nitem: b\n\n" ≠ str "item: a\nitem: b" ++ str "\n" := by
  decide

/-- C2 (as amended): for every content, positions `s` and `e` within the bounds and text `t`,
`replaceCode content s e t` is `content[0:s]`, then `t`, then `content[e-2:]`; and when `s` is the
End of the first and `e` the Pos of the second of the two comments found, the content `main`
writes is `content[0:s]`, then the rendered block followed by one newline when the block is not
empty and nothing when it is empty, then `content[e-2:]`. -/
theorem replaceCode_formula (content : Bytes) (s e : Nat) (t : Bytes)
    (hs : s ≤ content.length) (he2 : 2 ≤ e) (he : e ≤ content.length + 2) :
    replaceCode content s e t = some (content.take s ++ t ++ content.drop (e - 2)) ∧
    ∀ (E : Engine) (f : File) (label row col colSep : Bytes) (rd : List Bytes) (code : Bytes)
      (c0 c1 : Comment),
      lookupCommentLabel label f = [c0, c1] → c0.End = s → c1.Pos = e → s < e →
      renderBlock E row col colSep rd = some code →
      main E content f label row col colSep rd
        = some ⟨code, some (content.take s ++ (if code = [] then [] else code ++ str "\n")
            ++ content.drop (e - 2))⟩ := by
  refine ⟨replaceCode_eq content s e t hs he2 he, ?_⟩
  intro E f label row col colSep rd code c0 c1 hlook h0 h1 hlt hcode
  subst h0 h1
  rw [main_of_pair E content f label row col colSep rd code c0 c1 hlook hlt hcode,
    replaceCode_eq content c0.End c1.Pos _ hs he2 he]
  cases code with
  | nil => rfl
  | cons a l => simp [spliceText]

/-- Witness of C2 on the source with the two `LBL` markers, with the positions 24 and 25 of the
two comments and the two lines `a` and `b`. -/
theorem replaceCode_formula_witness :
    (24 ≤ lblSource.length ∧ 2 ≤ 25 ∧ 25 ≤ lblSource.length + 2) ∧
    replaceCode lblSource 24 25 (str "item: a\nitem: b\n")
      = some (lblSource.take 24 ++ str "item: a\nitem: b\n" ++ lblSource.drop (25 - 2)) ∧
    main htmlTemplate lblSource lblFile (str "LBL") itemTemplate [] (str ",") [str "a", str "b"]
      = some ⟨str "item: a\nitem: b",
          some (lblSource.take 24 ++ (if str "item: a\nitem: b" = [] then []
            else str "item: a\nitem: b" ++ str "\n") ++ lblSource.drop (25 - 2))⟩ :=
  ⟨by decide,
    (replaceCode_formula lblSource 24 25 (str "item: a\nitem: b\n")
      (by decide) (by decide) (by decide)).1,
    (replaceCode_formula lblSource 24 25 (str "item: a\nitem: b\n")
      (by decide) (by decide) (by decide)).2 htmlTemplate lblFile (str "LBL") itemTemplate []
      (str ",") [str "a", str "b"] (str "item: a\nitem: b") lblBegin lblEnd
      (by decide) (by decide) (by decide) (by decide) (by decide)⟩

/-- Counterexample to C2 as stated: with an input of no line the rendered block is empty, and the
content written for the source with the two `LBL` markers is `content[0:24]` followed by
`content[23:]`, with no newline between them. -/
theorem main_empty_block_counterexample :
    lookupCommentLabel (str "LBL") lblFile = [lblBegin, lblEnd] ∧
    lblBegin.End = 24 ∧ lblEnd.Pos = 25 ∧
    main htmlTemplate lblSource lblFile (str "LBL") itemTemplate [] (str ",") []
      = some ⟨[], some (lblSource.take 24 ++ lblSource.drop (25 - 2))⟩ ∧
    main htmlTemplate lblSource lblFile (str "LBL") itemTemplate [] (str ",") []
      ≠ some ⟨[], some (lblSource.take 24 ++ [] ++ str "\n" ++ lblSource.drop (25 - 2))⟩ := by
  decide

/-- C3 (the code at the failing input): for the label `FOO`, the comment `// FOO`, whose
trimmed text is the bare label with neither suffix, is returned by `lookupCommentLabel`:
`strings.TrimSuffix` leaves a text without the suffix as it is, and the text then equals the
label. -/
theorem lookupCommentLabel_bare_label :
    Located (str "package p\n// FOO\n") ⟨11, str "// FOO"⟩ ∧
    lookupCommentLabel (str "FOO") ⟨[⟨[⟨11, str "// FOO"⟩]⟩]⟩ = [⟨11, str "// FOO"⟩] ∧
    TrimSpace (TrimPrefix (str "// FOO") (str "//")) = str "FOO" ∧
    str "FOO" ≠ str "FOO" ++ str "-BEGIN" ∧ str "FOO" ≠ str "FOO" ++ str "-END" := by
  decide

/-- C4 (the code at the failing input): in `reversedSource` the `L-END` comment comes before the
`L-BEGIN` comment; `lookupCommentLabel` returns the two in document order, the check of `main`
compares the second's Pos with the first's End, which holds, and the run splices and writes. -/
theorem main_reversed_markers_spliced :
    Located reversedSource ⟨12, str "// L-END"⟩ ∧ Located reversedSource ⟨31, str "// L-BEGIN"⟩ ∧
    lookupCommentLabel (str "L") reversedFile = [⟨12, str "// L-END"⟩, ⟨31, str "// L-BEGIN"⟩] ∧
    main htmlTemplate reversedSource reversedFile (str "L") itemTemplate [] (str ",") [str "a"]
      = some ⟨str "item: a",
          some (str "package p\n\n// L-END\nitem: a\n\n// L-BEGIN\n")⟩ := by
  decide

/-- C5 (the code at the failing input): in `bareSource` one comment only is a marker of the label
`FOO`, the comment `// FOO-END`; the comment `// FOO` before it is the bare label.
`lookupCommentLabel` returns both (the slip of C3), the check of `main` holds for them, and the
run splices and writes: the declaration between the two comments is replaced. -/
theorem main_bare_label_spliced :
    Located bareSource bareLabel ∧ Located bareSource bareEnd ∧
    TrimSpace (TrimPrefix bareLabel.Text (str "//")) = str "FOO" ∧
    str "FOO" ≠ str "FOO" ++ str "-BEGIN" ∧ str "FOO" ≠ str "FOO" ++ str "-END" ∧
    TrimSpace (TrimPrefix bareEnd.Text (str "//")) = str "FOO" ++ str "-END" ∧
    lookupCommentLabel (str "FOO") bareFile = [bareLabel, bareEnd] ∧
    bareEnd.Pos > bareLabel.End ∧
    main htmlTemplate bareSource bareFile (str "FOO") itemTemplate [] (str ",") [str "a"]
      = some ⟨str "item: a", some (str "package p\n\n// FOO\nitem: a\n\n// FOO-END\n")⟩ := by
  decide

/-- When `lookupCommentLabel` returns fewer than two comments, the run ends with the rendered
block produced and with no splice and no write-back. -/
theorem main_fewer_than_two (E : Engine) (source : Bytes) (f : File)
    (label row col colSep : Bytes) (rd : List Bytes) (code : Bytes)
    (hlen : (lookupCommentLabel label f).length < 2)
    (hcode : renderBlock E row col colSep rd = some code) :
    main E source f label row col colSep rd = some ⟨code, none⟩ :=
  main_of_length_ne_two E source f label row col colSep rd code (by omega) hcode

/-- The run on a source with the BEGIN marker only, where `lookupCommentLabel` returns one
comment. -/
theorem main_fewer_than_two_witness :
    Located loneSource lblBegin ∧
    (lookupCommentLabel (str "LBL") loneFile).length < 2 ∧
    renderBlock htmlTemplate itemTemplate [] (str ",") [str "a", str "b"]
      = some (str "item: a\nitem: b") ∧
    main htmlTemplate loneSource loneFile (str "LBL") itemTemplate [] (str ",") [str "a", str "b"]
      = some ⟨str "item: a\nitem: b", none⟩ :=
  ⟨by decide, by decide, by decide,
    main_fewer_than_two htmlTemplate loneSource loneFile (str "LBL") itemTemplate [] (str ",")
      [str "a", str "b"] (str "item: a\nitem: b") (by decide) (by decide)⟩

/-- C6 (as amended): when more than two comments match the label, the run performs no splice and
no write-back (the check of `main` asks for exactly two); the rendered block is still
produced. -/
theorem main_more_than_two (E : Engine) (source : Bytes) (f : File)
    (label row col colSep : Bytes) (rd : List Bytes) (code : Bytes)
    (hlen : 2 < (lookupCommentLabel label f).length)
    (hcode : renderBlock E row col colSep rd = some code) :
    main E source f label row col colSep rd = some ⟨code, none⟩ :=
  main_of_length_ne_two E source f label row col colSep rd code (by omega) hcode

/-- Witness of C6 on a source with three matching comments. -/
theorem main_more_than_two_witness :
    2 < (lookupCommentLabel (str "LBL") tripleFile).length ∧
    renderBlock htmlTemplate itemTemplate [] (str ",") [str "a", str "b"]
      = some (str "item: a\nitem: b") ∧
    main htmlTemplate tripleSource tripleFile (str "LBL") itemTemplate [] (str ",")
        [str "a", str "b"]
      = some ⟨str "item: a\nitem: b", none⟩ :=
  ⟨by decide, by decide,
    main_more_than_two htmlTemplate tripleSource tripleFile (str "LBL") itemTemplate []
      (str ",") [str "a", str "b"] (str "item: a\nitem: b") (by decide) (by decide)⟩

/-- Counterexample to C6 as stated: in `tripleSource` three comments match the label and the
first two are a correctly ordered pair, in position in the source; the run writes nothing, where
the claim has it write the splice between the first two. -/
theorem main_three_matches_counterexample :
    Located tripleSource lblBegin ∧ Located tripleSource lblEnd ∧ Located tripleSource lblEnd2 ∧
    lookupCommentLabel (str "LBL") tripleFile = [lblBegin, lblEnd, lblEnd2] ∧
    lblBegin.End < lblEnd.Pos ∧
    replaceCode tripleSource lblBegin.End lblEnd.Pos (spliceText (str "item: a\nitem: b"))
      = some (str "package p\n\n// LBL-BEGIN\nitem: a\nitem: b\n\n// LBL-END\n// LBL-END\n") ∧
    main htmlTemplate tripleSource tripleFile (str "LBL") itemTemplate [] (str ",")
        [str "a", str "b"]
      = some ⟨str "item: a\nitem: b", none⟩ := by
  decide

/-- C7: when `replaceCode content s e t` returns `r` (as it does at the positions `s < e` of a
splice), then in `r` the content up to position `s` is as before, the content from the END
comment on now starts at position `s + len(t) + 2` (offset `s + len(t) + 1`), and splicing `r`
again with the same text at these positions returns `r`. -/
theorem replaceCode_idempotent (content : Bytes) (s e : Nat) (t r : Bytes)
    (h : replaceCode content s e t = some r) :
    replaceCode r s (s + t.length + 2) t = some r ∧
    r.take s = content.take s ∧
    r.drop (s + t.length + 1) = content.drop (e - 1) := by
  obtain ⟨hs, he2, he, rfl⟩ := replaceCode_some content s e t r h
  have hlen : (content.take s).length = s := by simp [hs]
  have htake : (content.take s ++ t ++ content.drop (e - 2)).take s = content.take s := by
    rw [List.append_assoc, List.take_append_of_le_length (by omega), List.take_take]
    simp
  have hdrop : ∀ k, (content.take s ++ t ++ content.drop (e - 2)).drop (s + t.length + k)
      = content.drop (e - 2 + k) := by
    intro k
    have : s + t.length + k = (content.take s ++ t).length + k := by simp [hlen]
    rw [this, List.drop_append, List.drop_drop]
  refine ⟨?_, htake, ?_⟩
  · rw [replaceCode_eq _ s (s + t.length + 2) t (by simp; omega) (by omega)
      (by simp; omega), htake]
    have := hdrop 0
    simp only [Nat.add_zero] at this
    rw [show s + t.length + 2 - 2 = s + t.length by omega, this]
  · rw [hdrop 1]
    congr 1
    omega

/-- Witness of C7 on the source with the two `LBL` markers. -/
theorem replaceCode_idempotent_witness :
    24 < 25 ∧
    replaceCode lblSource 24 25 (str "item: a\n")
      = some (str "package p\n\n// LBL-BEGIN\nitem: a\n\n// LBL-END\n") ∧
    replaceCode (str "package p\n\n// LBL-BEGIN\nitem: a\n\n// LBL-END\n") 24
        (24 + (str "item: a\n").length + 2) (str "item: a\n")
      = some (str "package p\n\n// LBL-BEGIN\nitem: a\n\n// LBL-END\n") ∧
    (str "package p\n\n// LBL-BEGIN\nitem: a\n\n// LBL-END\n").take 24 = lblSource.take 24 ∧
    (str "package p\n\n// LBL-BEGIN\nitem: a\n\n// LBL-END\n").drop
        (24 + (str "item: a\n").length + 1)
      = lblSource.drop (25 - 1) :=
  ⟨by decide, by decide,
    replaceCode_idempotent lblSource 24 25 (str "item: a\n")
      (str "package p\n\n// LBL-BEGIN\nitem: a\n\n// LBL-END\n") (by decide)⟩

/-- What the code renders with the identity template: for every input of N lines, the block
rendered in row mode with the identity template, which is the block of `main` when neither a row
nor a column template is given, is the N lines, each escaped as html/template escapes a value in HTML text (the byte 0 becomes U+FFFD,
the double quote `&#34;`, the ampersand `&amp;`, the single quote `&#39;`, the plus `&#43;`, the
less-than `&lt;`, the greater-than `&gt;`), joined by a newline; when no line holds one of these
seven bytes, it is the N lines unchanged, joined by a newline. -/
theorem generateRowOutput_identity (rd : List Bytes) (colSep : Bytes) :
    generateRowOutput htmlTemplate identityTemplate rd
      = some (List.intercalate (str "\n") (rd.map htmlEscaper)) ∧
    renderBlock htmlTemplate [] [] colSep rd
      = generateRowOutput htmlTemplate identityTemplate rd ∧
    ((∀ l ∈ rd, ∀ c ∈ l, c ∉ [0, 34, 38, 39, 43, 60, 62]) →
      generateRowOutput htmlTemplate identityTemplate rd
        = some (List.intercalate (str "\n") rd)) := by
  have hp : htmlTemplate.Parse identityTemplate = some [Node.dot] := by decide
  have hrow : generateRowOutput htmlTemplate identityTemplate rd
      = some (List.intercalate (str "\n") (rd.map htmlEscaper)) := by
    rw [generateRowOutput_eq htmlTemplate identityTemplate rd [Node.dot] hp]
    congr 3
    funext l
    simp [htmlTemplate, execNodes, execNode]
  refine ⟨hrow, rfl, ?_⟩
  intro hplain
  rw [hrow]
  congr 2
  calc rd.map htmlEscaper = rd.map id :=
        List.map_congr_left (fun l hl => htmlEscaper_of_plain l (hplain l hl))
    _ = rd := List.map_id rd

/-- The identity template on the two lines `a` and `b`, which hold no escaped byte. -/
theorem generateRowOutput_identity_witness :
    (∀ l ∈ [str "a", str "b"], ∀ c ∈ l, c ∉ [0, 34, 38, 39, 43, 60, 62]) ∧
    generateRowOutput htmlTemplate identityTemplate [str "a", str "b"]
      = some (List.intercalate (str "\n") [str "a", str "b"]) :=
  ⟨by decide, (generateRowOutput_identity [str "a", str "b"] (str ",")).2.2 (by decide)⟩

/-- C8 (the code at the failing input): the line `a<b` is rendered `a&lt;b` by the identity
template, in row mode and so by `main` without row and column template, and the line
`s := "a" + b` of Go source is rendered `s := &#34;a&#34; &#43; b`; on the source with the two
`LBL` markers the run writes the escaped text into the file. -/
theorem generateRowOutput_identity_escapes :
    generateRowOutput htmlTemplate identityTemplate [str "a<b"] = some (str "a&lt;b") ∧
    renderBlock htmlTemplate [] [] (str ",") [str "a<b"] = some (str "a&lt;b") ∧
    str "a&lt;b" ≠ Join [str "a<b"] (str "\n") ∧
    renderBlock htmlTemplate [] [] (str ",") [str "s := \"a\" + b"]
      = some (str "s := &#34;a&#34; &#43; b") ∧
    main htmlTemplate lblSource lblFile (str "LBL") [] [] (str ",") [str "s := \"a\" + b"]
      = some ⟨str "s := &#34;a&#34; &#43; b",
          some (str "package p\n\n// LBL-BEGIN\ns := &#34;a&#34; &#43; b\n\n// LBL-END\n")⟩ := by
  decide

/-- C9: for every engine, column template that compiles, separator and input lines, the result
of `generateColOutput` is the per-line outputs in input order with the separator between them:
the first output, then the separator and the output for each further line; it is empty for no
line, and for N lines, N at least 1, its length is the sum of the lengths of the outputs plus
N - 1 separators.  With html/template, the template `{{ basename . }}`, the separator `-` and the
lines `/x/a.go` and `/y/b.go` give `a.go-b.go`. -/
theorem generateColOutput_join (E : Engine) (col sep : Bytes) (rd : List Bytes)
    (tpl : E.Template) (h : E.Parse col = some tpl) :
    generateColOutput E col sep rd
      = some (List.intercalate sep (rd.map (fun l => (E.Execute tpl l).1))) ∧
    (rd = [] → generateColOutput E col sep rd = some []) ∧
    (∀ a rest, rd = a :: rest → generateColOutput E col sep rd
      = some ((E.Execute tpl a).1
          ++ (rest.map (fun l => sep ++ (E.Execute tpl l).1)).flatten)) ∧
    (rd ≠ [] → ∃ out, generateColOutput E col sep rd = some out ∧
      out.length = (rd.map (fun l => (E.Execute tpl l).1.length)).sum
        + (rd.length - 1) * sep.length) ∧
    generateColOutput htmlTemplate (str "\x7b\x7b basename . \x7d\x7d") (str "-")
      [str "/x/a.go", str "/y/b.go"] = some (str "a.go-b.go") := by
  have heq := generateColOutput_eq E col sep rd tpl h
  refine ⟨heq, ?_, ?_, ?_, by decide⟩
  · intro hrd
    rw [heq, hrd]
    rfl
  · intro a rest hrd
    rw [heq, hrd, List.map_cons, intercalate_eq, List.map_map]
    rfl
  · intro hrd
    refine ⟨_, heq, ?_⟩
    have hlen := length_intercalate sep (rd.map (fun l => (E.Execute tpl l).1))
    have hne : rd.map (fun l => (E.Execute tpl l).1) ≠ [] := by simpa using hrd
    have hpos : 1 ≤ rd.length := List.length_pos.mpr hrd
    rw [if_neg hne, List.map_map, List.length_map] at hlen
    have hsplit : rd.length * sep.length = (rd.length - 1) * sep.length + sep.length := by
      conv_lhs => rw [show rd.length = (rd.length - 1) + 1 by omega]
      rw [Nat.add_mul, Nat.one_mul]
    have hfun : (List.length ∘ fun l => (E.Execute tpl l).1)
        = fun l => (E.Execute tpl l).1.length := rfl
    rw [hfun] at hlen
    omega

/-- Witness of C9 with html/template, the template `{{ basename . }}`, the separator `, ` and
three lines. -/
theorem generateColOutput_join_witness :
    htmlTemplate.Parse (str "\x7b\x7b basename . \x7d\x7d")
      = some [Node.call (str "basename") 1] ∧
    generateColOutput htmlTemplate (str "\x7b\x7b basename . \x7d\x7d") (str ", ")
        [str "/x/a.go", str "b.go", str "c/"]
      = some (List.intercalate (str ", ")
          ([str "/x/a.go", str "b.go", str "c/"].map
            (fun l => (htmlTemplate.Execute [Node.call (str "basename") 1] l).1))) ∧
    List.intercalate (str ", ")
        ([str "/x/a.go", str "b.go", str "c/"].map
          (fun l => (htmlTemplate.Execute [Node.call (str "basename") 1] l).1))
      = str "a.go, b.go, c" :=
  ⟨by decide,
    (generateColOutput_join htmlTemplate (str "\x7b\x7b basename . \x7d\x7d") (str ", ")
      [str "/x/a.go", str "b.go", str "c/"] [Node.call (str "basename") 1] (by decide)).1,
    by decide⟩

/-- C10 (as amended): for a source in which the two comments found for the label `LBL` are in
position, the input lines `a` and `b` and the row template `item: {{ . }}`, the rendered block is
`item: a\nitem: b`, and the content written back is the source up to the position End of the
first comment (one byte past the comment), then `item: a\nitem: b\n`, then the source from one
byte before the second comment on; its length is `len(source) + 16 + 2 - g`, where `g` is the
number of bytes between the two comments.  With two bytes between the comments the 16 bytes are
inserted after the first of them and every other byte is unchanged. -/
theorem main_item_scenario (source : Bytes) (f : File) (col colSep : Bytes) (b e : Comment)
    (hlook : lookupCommentLabel (str "LBL") f = [b, e])
    (hb : Located source b) (he : Located source e) (hord : b.End < e.Pos) :
    renderBlock htmlTemplate itemTemplate col colSep [str "a", str "b"]
      = some (str "item: a\nitem: b") ∧
    main htmlTemplate source f (str "LBL") itemTemplate col colSep [str "a", str "b"]
      = some ⟨str "item: a\nitem: b",
          some (source.take b.End ++ str "item: a\nitem: b\n" ++ source.drop (e.Pos - 2))⟩ ∧
    (source.take b.End ++ str "item: a\nitem: b\n" ++ source.drop (e.Pos - 2)).length
        + (e.Pos - b.End) = source.length + 16 + 2 ∧
    (e.Pos = b.End + 2 →
      main htmlTemplate source f (str "LBL") itemTemplate col colSep [str "a", str "b"]
        = some ⟨str "item: a\nitem: b",
            some (source.take b.End ++ str "item: a\nitem: b\n" ++ source.drop b.End)⟩) := by
  obtain ⟨hb1, -, -⟩ := hb
  obtain ⟨-, he2, -⟩ := he
  have hbe : 1 ≤ b.End := by unfold Comment.End; omega
  have hep : e.Pos ≤ source.length + 1 := by
    unfold Comment.End at he2; unfold Comment.Pos; omega
  have hcode : renderBlock htmlTemplate itemTemplate col colSep [str "a", str "b"]
      = some (str "item: a\nitem: b") := by
    unfold renderBlock
    rw [if_pos (by decide)]
    decide
  have hmain : main htmlTemplate source f (str "LBL") itemTemplate col colSep [str "a", str "b"]
      = some ⟨str "item: a\nitem: b",
          some (source.take b.End ++ str "item: a\nitem: b\n" ++ source.drop (e.Pos - 2))⟩ := by
    rw [main_of_pair htmlTemplate source f (str "LBL") itemTemplate col colSep _ _ b e hlook hord
      hcode, replaceCode_eq source b.End e.Pos _ (by omega) (by omega) (by omega)]
    rfl
  refine ⟨hcode, hmain, ?_, ?_⟩
  · have h16 : (str "item: a\nitem: b\n").length = 16 := by decide
    simp only [List.length_append, List.length_take, List.length_drop, h16]
    omega
  · intro hg
    rw [hmain, hg]
    simp

/-- Witness of C10 on the source with the two `LBL` markers on consecutive lines. -/
theorem main_item_scenario_witness :
    lookupCommentLabel (str "LBL") lblFile = [lblBegin, lblEnd] ∧
    Located lblSource lblBegin ∧ Located lblSource lblEnd ∧ lblBegin.End < lblEnd.Pos ∧
    main htmlTemplate lblSource lblFile (str "LBL") itemTemplate [] (str ",") [str "a", str "b"]
      = some ⟨str "item: a\nitem: b",
          some (lblSource.take lblBegin.End ++ str "item: a\nitem: b\n"
            ++ lblSource.drop (lblEnd.Pos - 2))⟩ :=
  ⟨by decide, by decide, by decide, by decide,
    (main_item_scenario lblSource lblFile [] (str ",") lblBegin lblEnd
      (by decide) (by decide) (by decide) (by decide)).2.1⟩

/-- Counterexample to C10 as stated: in `lblSource` the comment `// LBL-BEGIN` is directly
followed on the next line by `// LBL-END`; the content written back has 17 bytes more than the
source: the newline between the two comments stands before the inserted text and once more after
it. -/
theorem main_item_scenario_counterexample :
    lookupCommentLabel (str "LBL") lblFile = [lblBegin, lblEnd] ∧
    Located lblSource lblBegin ∧ Located lblSource lblEnd ∧
    lblSource.drop (lblBegin.End - 1) = str "\n// LBL-END\n" ∧
    main htmlTemplate lblSource lblFile (str "LBL") itemTemplate [] (str ",") [str "a", str "b"]
      = some ⟨str "item: a\nitem: b",
          some (str "package p\n\n// LBL-BEGIN\nitem: a\nitem: b\n\n// LBL-END\n")⟩ ∧
    (str "package p\n\n// LBL-BEGIN\nitem: a\nitem: b\n\n// LBL-END\n").length
      = lblSource.length + 17 ∧
    str "package p\n\n// LBL-BEGIN\nitem: a\nitem: b\n\n// LBL-END\n"
      ≠ str "package p\n\n// LBL-BEGIN\nitem: a\nitem: b\n// LBL-END\n" := by
  decide

/-- C11: when `main` reaches the splice with the rendered block `code`, the text it hands to
`replaceCode` is `code` followed by one newline (one byte more than `code`) when `code` is not
empty, and the empty text when `code` is empty. -/
theorem main_splice_text (E : Engine) (source : Bytes) (f : File)
    (label row col colSep : Bytes) (rd : List Bytes) (code : Bytes) (c0 c1 : Comment)
    (hlook : lookupCommentLabel label f = [c0, c1]) (hord : c0.End < c1.Pos)
    (hcode : renderBlock E row col colSep rd = some code) :
    main E source f label row col colSep rd
      = (replaceCode source c0.End c1.Pos (if code = [] then [] else code ++ [10])).map
          (fun w => ⟨code, some w⟩) ∧
    (code ≠ [] → spliceText code = code ++ str "\n" ∧
      (spliceText code).length = code.length + 1) ∧
    (code = [] → spliceText code = []) := by
  have hsp : spliceText code = if code = [] then [] else code ++ [10] := by
    cases code with
    | nil => rfl
    | cons a l => simp [spliceText]; rfl
  refine ⟨?_, ?_, ?_⟩
  · rw [main_of_pair E source f label row col colSep rd code c0 c1 hlook hord hcode, hsp]
  · intro hne
    rw [hsp, if_neg hne]
    exact ⟨rfl, by simp⟩
  · intro he
    rw [hsp, if_pos he]

/-- Witness of C11 on the source with the two `LBL` markers and the lines `a` and `b`. -/
theorem main_splice_text_witness :
    lookupCommentLabel (str "LBL") lblFile = [lblBegin, lblEnd] ∧ lblBegin.End < lblEnd.Pos ∧
    renderBlock htmlTemplate itemTemplate [] (str ",") [str "a", str "b"]
      = some (str "item: a\nitem: b") ∧
    str "item: a\nitem: b" ≠ [] ∧
    spliceText (str "item: a\nitem: b") = str "item: a\nitem: b" ++ str "\n" ∧
    (spliceText (str "item: a\nitem: b")).length = (str "item: a\nitem: b").length + 1 :=
  ⟨by decide, by decide, by decide, by decide,
    (main_splice_text htmlTemplate lblSource lblFile (str "LBL") itemTemplate [] (str ",")
      [str "a", str "b"] (str "item: a\nitem: b") lblBegin lblEnd
      (by decide) (by decide) (by decide)).2.1 (by decide)⟩

/-- C12 (as amended): for every content, text and pair of comments in position in the content,
the first ending before the second starts, `replaceCode` returns the content up to the End of the
first comment, the text, the one byte that precedes the second comment in the content, and the
content from the first byte of the second comment on, which begins with the text of that
comment: the END comment is kept, and the part re-included in front of it is one byte, the one
before the comment. -/
theorem replaceCode_keeps_end (content t : Bytes) (b e : Comment)
    (hb : Located content b) (he : Located content e) (hord : b.End < e.Pos) :
    ∃ y, content[e.Pos - 2]? = some y ∧
      replaceCode content b.End e.Pos t
        = some (content.take b.End ++ t ++ y :: content.drop (e.Pos - 1)) ∧
      e.Text <+: content.drop (e.Pos - 1) := by
  obtain ⟨hb1, -, -⟩ := hb
  obtain ⟨-, he2, he3⟩ := he
  have hbe : 1 ≤ b.End := by unfold Comment.End; omega
  have hep : e.Pos ≤ content.length + 1 := by
    unfold Comment.End at he2; unfold Comment.Pos; omega
  have hy : e.Pos - 2 < content.length := by omega
  refine ⟨content[e.Pos - 2], List.getElem?_eq_getElem hy, ?_, ?_⟩
  · rw [replaceCode_eq content b.End e.Pos t (by omega) (by omega) (by omega)]
    have h2 := drop_of_lt content (e.Pos - 2) hy
    rw [show e.Pos - 2 + 1 = e.Pos - 1 by omega] at h2
    rw [h2]
  · have := List.take_prefix e.Text.length (content.drop (e.Slash - 1))
    rw [he3] at this
    exact this

/-- Witness of C12 on the source with the two `LBL` markers. -/
theorem replaceCode_keeps_end_witness :
    Located lblSource lblBegin ∧ Located lblSource lblEnd ∧ lblBegin.End < lblEnd.Pos ∧
    ∃ y, lblSource[lblEnd.Pos - 2]? = some y ∧
      replaceCode lblSource lblBegin.End lblEnd.Pos (str "x\n")
        = some (lblSource.take lblBegin.End ++ str "x\n" ++ y :: lblSource.drop (lblEnd.Pos - 1)) ∧
      lblEnd.Text <+: lblSource.drop (lblEnd.Pos - 1) :=
  ⟨by decide, by decide, by decide,
    replaceCode_keeps_end lblSource (str "x\n") lblBegin lblEnd
      (by decide) (by decide) (by decide)⟩

/-- Counterexample to C12 as stated: in the source with the two `LBL` markers, the output of
`replaceCode` ends with the suffix that starts at the END comment, and what stands in front of
that suffix after the text is the newline that precedes the END comment, not two slashes; the two
bytes `content[e-2:e]` are that newline and the first slash of the comment. -/
theorem replaceCode_two_slashes_counterexample :
    Located lblSource lblBegin ∧ Located lblSource lblEnd ∧ lblBegin.End < lblEnd.Pos ∧
    lblSource.drop (lblEnd.Pos - 1) = str "// LBL-END\n" ∧
    replaceCode lblSource lblBegin.End lblEnd.Pos (str "x\n")
      = some (lblSource.take lblBegin.End ++ str "x\n" ++ str "\n"
          ++ lblSource.drop (lblEnd.Pos - 1)) ∧
    replaceCode lblSource lblBegin.End lblEnd.Pos (str "x\n")
      ≠ some (lblSource.take lblBegin.End ++ str "x\n" ++ str "//"
          ++ lblSource.drop (lblEnd.Pos - 1)) ∧
    (lblSource.drop (lblEnd.Pos - 2)).take 2 = str "\n/" := by
  decide

/-- C14: the rendered block of `main` is `generateRowOutput row input` whenever `row` is not
empty, whatever `col` is; it is `generateColOutput col sep input` when `row` is empty and `col`
is not; it is `generateRowOutput "{{ . }}" input` when both are empty.  This block is the one a
run of `main` ends with: on a file without comments `main` returns it with nothing written, and
every run that returns has it as its `code`. -/
theorem renderBlock_modes (E : Engine) (row col colSep : Bytes) (rd : List Bytes) :
    (row ≠ [] → renderBlock E row col colSep rd = generateRowOutput E row rd) ∧
    (row = [] → col ≠ [] → renderBlock E row col colSep rd = generateColOutput E col colSep rd) ∧
    (row = [] → col = [] →
      renderBlock E row col colSep rd = generateRowOutput E identityTemplate rd) ∧
    (∀ source label, main E source ⟨[]⟩ label row col colSep rd
      = (renderBlock E row col colSep rd).map (fun code => ⟨code, none⟩)) ∧
    (∀ source f label run, main E source f label row col colSep rd = some run →
      renderBlock E row col colSep rd = some run.code) := by
  refine ⟨?_, ?_, ?_, ?_, ?_⟩
  · intro h
    unfold renderBlock
    rw [if_pos h]
  · intro h1 h2
    unfold renderBlock
    rw [if_neg (not_not.mpr h1), if_pos h2]
  · intro h1 h2
    unfold renderBlock
    rw [if_neg (not_not.mpr h1), if_neg (not_not.mpr h2)]
  · intro source label
    unfold main
    cases renderBlock E row col colSep rd <;> rfl
  · intro source f label run hrun
    unfold main at hrun
    cases hr : renderBlock E row col colSep rd with
    | none => simp [hr] at hrun
    | some code =>
      simp only [hr] at hrun
      split at hrun
      · split at hrun
        · split at hrun
          · exact absurd hrun (by simp)
          · simp only [Option.some.injEq] at hrun
            rw [← hrun]
        · simp only [Option.some.injEq] at hrun
          rw [← hrun]
      · simp only [Option.some.injEq] at hrun
        rw [← hrun]

/-- Witness of C14 with html/template: a row template with a column template beside it, a column
template alone, and neither. -/
theorem renderBlock_modes_witness :
    (itemTemplate ≠ [] ∧
      renderBlock htmlTemplate itemTemplate (str "\x7b\x7b basename . \x7d\x7d") (str "-")
          [str "/x/a.go", str "/y/b.go"]
        = generateRowOutput htmlTemplate itemTemplate [str "/x/a.go", str "/y/b.go"]) ∧
    (([] : Bytes) = [] ∧ str "\x7b\x7b basename . \x7d\x7d" ≠ [] ∧
      renderBlock htmlTemplate [] (str "\x7b\x7b basename . \x7d\x7d") (str "-")
          [str "/x/a.go", str "/y/b.go"]
        = generateColOutput htmlTemplate (str "\x7b\x7b basename . \x7d\x7d") (str "-")
            [str "/x/a.go", str "/y/b.go"]) ∧
    (renderBlock htmlTemplate [] [] (str "-") [str "/x/a.go", str "/y/b.go"]
        = generateRowOutput htmlTemplate identityTemplate [str "/x/a.go", str "/y/b.go"]) ∧
    generateRowOutput htmlTemplate itemTemplate [str "/x/a.go", str "/y/b.go"]
      = some (str "item: /x/a.go\nitem: /y/b.go") ∧
    generateColOutput htmlTemplate (str "\x7b\x7b basename . \x7d\x7d") (str "-")
        [str "/x/a.go", str "/y/b.go"] = some (str "a.go-b.go") ∧
    generateRowOutput htmlTemplate identityTemplate [str "/x/a.go", str "/y/b.go"]
      = some (str "/x/a.go\n/y/b.go") :=
  ⟨⟨by decide,
    (renderBlock_modes htmlTemplate itemTemplate (str "\x7b\x7b basename . \x7d\x7d") (str "-")
      [str "/x/a.go", str "/y/b.go"]).1 (by decide)⟩,
   ⟨rfl, by decide,
    (renderBlock_modes htmlTemplate [] (str "\x7b\x7b basename . \x7d\x7d") (str "-")
      [str "/x/a.go", str "/y/b.go"]).2.1 rfl (by decide)⟩,
   (renderBlock_modes htmlTemplate [] [] (str "-")
      [str "/x/a.go", str "/y/b.go"]).2.2.1 rfl rfl,
   by decide, by decide, by decide⟩

/-- C16: for positions `1 <= s < e <= len(content) + 1`, the two slice expressions of
`replaceCode` are within bounds, `replaceCode` returns a result, and the length of the result is
`s + len(code) + len(content) - (e - 2)`.  The End of a first and the Pos of a second comment in
position in the content, the first ending before the second starts, are such positions. -/
theorem replaceCode_in_bounds (content code : Bytes) (s e : Nat)
    (h1 : 1 ≤ s) (h2 : s < e) (h3 : e ≤ content.length + 1) :
    (s ≤ content.length ∧ 2 ≤ e ∧ e - 2 ≤ content.length) ∧
    (∃ r, replaceCode content s e code = some r ∧
      r.length = s + code.length + content.length - (e - 2)) ∧
    (∀ c0 c1 : Comment, Located content c0 → Located content c1 → c0.End = s → c1.Pos = e →
      1 ≤ c0.End ∧ c0.End < c1.Pos ∧ c1.Pos ≤ content.length + 1) := by
  refine ⟨⟨by omega, by omega, by omega⟩, ?_, ?_⟩
  · refine ⟨_, replaceCode_eq content s e code (by omega) (by omega) (by omega), ?_⟩
    simp only [List.length_append, List.length_take, List.length_drop]
    omega
  · intro c0 c1 _ _ h0 hp
    subst h0 hp
    exact ⟨h1, h2, h3⟩

/-- Witness of C16 on the source with the two `LBL` markers, at the positions 24 and 25 of its
two comments. -/
theorem replaceCode_in_bounds_witness :
    (1 ≤ 24 ∧ 24 < 25 ∧ 25 ≤ lblSource.length + 1) ∧
    ∃ r, replaceCode lblSource 24 25 (str "item: a\n") = some r ∧
      r.length = 24 + (str "item: a\n").length + lblSource.length - (25 - 2) :=
  ⟨by decide,
    (replaceCode_in_bounds lblSource (str "item: a\n") 24 25
      (by decide) (by decide) (by decide)).2.1⟩

/-- C17: when each comment of the file ends before the next one starts, `lookupCommentLabel`
returns a sublist of the comments, in their order; so when it returns exactly two comments, the
Pos of the second is greater than the End of the first, whatever their texts are, and `main`
goes on to `replaceCode` with these two positions. -/
theorem lookupCommentLabel_document_order (label : Bytes) (f : File)
    (hchain : List.Chain' (fun a b : Comment => a.End < b.Pos)
      (f.Comments.flatMap (fun c => c.List))) :
    List.Sublist (lookupCommentLabel label f) (f.Comments.flatMap (fun c => c.List)) ∧
    ∀ c0 c1, lookupCommentLabel label f = [c0, c1] →
      c1.Pos > c0.End ∧
      ∀ (E : Engine) (source row col colSep : Bytes) (rd : List Bytes) (code : Bytes),
        renderBlock E row col colSep rd = some code →
        main E source f label row col colSep rd
          = (replaceCode source c0.End c1.Pos (spliceText code)).map
              (fun w => ⟨code, some w⟩) := by
  have hsub : List.Sublist (lookupCommentLabel label f)
      (f.Comments.flatMap (fun c => c.List)) := by
    rw [lookupCommentLabel_eq_filter]
    exact List.filter_sublist _
  refine ⟨hsub, ?_⟩
  intro c0 c1 hlook
  haveI : IsTrans Comment (fun a b : Comment => a.End < b.Pos) :=
    ⟨fun a b c hab hbc => by
      have hb : b.Pos ≤ b.End := by unfold Comment.Pos Comment.End; omega
      exact lt_of_lt_of_le hab (le_trans hb (le_of_lt hbc))⟩
  have hpair := (List.chain'_iff_pairwise.mp hchain).sublist hsub
  rw [hlook] at hpair
  have hord : c0.End < c1.Pos := by
    have := List.pairwise_cons.mp hpair
    exact this.1 c1 (List.mem_singleton_self c1)
  refine ⟨hord, ?_⟩
  intro E source row col colSep rd code hcode
  exact main_of_pair E source f label row col colSep rd code c0 c1 hlook hord hcode

/-- Witness of C17 on the source in which the END marker comes before the BEGIN marker. -/
theorem lookupCommentLabel_document_order_witness :
    List.Chain' (fun a b : Comment => a.End < b.Pos)
      (reversedFile.Comments.flatMap (fun c => c.List)) ∧
    lookupCommentLabel (str "L") reversedFile
      = [⟨12, str "// L-END"⟩, ⟨31, str "// L-BEGIN"⟩] ∧
    Comment.Pos ⟨31, str "// L-BEGIN"⟩ > Comment.End ⟨12, str "// L-END"⟩ := by
  have hchain : List.Chain' (fun a b : Comment => a.End < b.Pos)
      (reversedFile.Comments.flatMap (fun c => c.List)) := by
    have hall : reversedFile.Comments.flatMap (fun c => c.List)
        = [⟨12, str "// L-END"⟩, ⟨31, str "// L-BEGIN"⟩] := by decide
    rw [hall]
    exact List.chain'_cons.mpr ⟨by decide, List.chain'_singleton _⟩
  exact ⟨hchain, by decide,
    ((lookupCommentLabel_document_order (str "L") reversedFile hchain).2
      ⟨12, str "// L-END"⟩ ⟨31, str "// L-BEGIN"⟩ (by decide)).1⟩

/-- C13 (as amended): for every engine, template that compiles and input of N lines, the
rendered block is, in row mode and in column mode alike, the join of exactly N elements in input
order, the element for a line being what the execution on that line has written to its builder,
whether it returned an error or not: a line whose execution fails contributes what was written
before the error (the empty string when nothing was), and the other lines are rendered all the
same. -/
theorem generate_output_elements (E : Engine) (t sep : Bytes) (rd : List Bytes)
    (tpl : E.Template) (h : E.Parse t = some tpl) :
    generateRowOutput E t rd
      = some (List.intercalate (str "\n") (rd.map (fun l => (E.Execute tpl l).1))) ∧
    generateColOutput E t sep rd
      = some (List.intercalate sep (rd.map (fun l => (E.Execute tpl l).1))) ∧
    (rd.map (fun l => (E.Execute tpl l).1)).length = rd.length ∧
    ∀ i (hi : i < rd.length),
      (rd.map (fun l => (E.Execute tpl l).1))[i]? = some (E.Execute tpl rd[i]).1 := by
  refine ⟨generateRowOutput_eq E t rd tpl h, generateColOutput_eq E t sep rd tpl h,
    List.length_map _ _, ?_⟩
  intro i hi
  rw [List.getElem?_map, List.getElem?_eq_getElem hi]
  rfl

/-- Witness of C13 with html/template and the template `x{{ basename }}`, whose execution
fails on every line after `x` is written. -/
theorem generate_output_elements_witness :
    htmlTemplate.Parse failingTemplate = some [Node.text (str "x"), Node.call (str "basename") 0] ∧
    htmlTemplate.Execute [Node.text (str "x"), Node.call (str "basename") 0] (str "a")
      = (str "x", true) ∧
    generateRowOutput htmlTemplate failingTemplate [str "a", str "b"]
      = some (List.intercalate (str "\n") ([str "a", str "b"].map
          (fun l => (htmlTemplate.Execute
            [Node.text (str "x"), Node.call (str "basename") 0] l).1))) :=
  ⟨by decide, by decide,
    (generate_output_elements htmlTemplate failingTemplate (str ",") [str "a", str "b"]
      [Node.text (str "x"), Node.call (str "basename") 0] (by decide)).1⟩

/-- Counterexample to C13 as stated: with the template `x{{ basename }}` the execution returns
an error on each of the lines `a` and `b`, after it has written `x`; the rendered block is
`x\nx` in row mode and `x,x` in column mode, where two empty strings would give `\n` and `,`. -/
theorem generate_output_error_counterexample :
    htmlTemplate.Parse failingTemplate = some [Node.text (str "x"), Node.call (str "basename") 0] ∧
    (htmlTemplate.Execute [Node.text (str "x"), Node.call (str "basename") 0] (str "a")).2 = true ∧
    (htmlTemplate.Execute [Node.text (str "x"), Node.call (str "basename") 0] (str "b")).2 = true ∧
    generateRowOutput htmlTemplate failingTemplate [str "a", str "b"] = some (str "x\nx") ∧
    generateColOutput htmlTemplate failingTemplate (str ",") [str "a", str "b"]
      = some (str "x,x") ∧
    str "x\nx" ≠ Join [[], []] (str "\n") ∧ str "x,x" ≠ Join [[], []] (str ",") := by
  decide

/-- C15: the helper `split` without separator argument returns `strings.Split(s, " ")`, which is
`s` split on the byte 32 as the library function `List.splitOn` does; with separator arguments
it returns `strings.Split(s, sep0)` for the first of them.  For a non-empty separator that is the
whole of `s` when the separator does not occur, else what stands before the first occurrence
followed by the split of what stands behind it (`Index` gives the first occurrence: the separator
stands there and at no offset before); for a separator of one byte it is `List.splitOn`; for the
empty separator it is nothing for the empty string, else the first rune of `s` followed by the
split of the rest.  In every case the pieces joined with the separator used are `s`, and no piece
holds an occurrence of a non-empty separator. -/
theorem split_pieces (path sep0 : Bytes) (more : List Bytes) :
    split path [] = Split path (str " ") ∧
    split path (sep0 :: more) = Split path sep0 ∧
    Join (split path []) (str " ") = path ∧
    Join (split path (sep0 :: more)) sep0 = path ∧
    (∀ piece ∈ split path [], Index piece (str " ") = none) ∧
    (sep0 ≠ [] → ∀ piece ∈ split path (sep0 :: more), Index piece sep0 = none) ∧
    split path [] = path.splitOn 32 ∧
    (∀ c, split path ([c] :: more) = path.splitOn c) ∧
    (sep0 ≠ [] → split path (sep0 :: more) =
      match Index path sep0 with
      | none => [path]
      | some m => path.take m :: split (path.drop (m + sep0.length)) (sep0 :: more)) ∧
    (∀ m, Index path sep0 = some m →
      sep0 <+: path.drop m ∧ ∀ k, k < m → ¬ sep0 <+: path.drop k) ∧
    (Index path sep0 = none → ∀ k, ¬ sep0 <+: path.drop k) ∧
    split [] ([] :: more) = [] ∧
    (path ≠ [] → 1 ≤ runeSize path ∧ split path ([] :: more)
      = path.take (runeSize path) :: split (path.drop (runeSize path)) ([] :: more)) ∧
    split (str "a b  c") [] = [str "a", str "b", [], str "c"] ∧
    split (str "aXXbXXXc") [str "XX", str "b"] = [str "a", str "b", str "Xc"] ∧
    split (str "aé€𝄞 b") [[]] = [str "a", str "é", str "€", str "𝄞", str " ", str "b"] := by
  refine ⟨rfl, rfl, Split_Join path (str " "), Split_Join path sep0,
    Split_no_sep path (str " ") (by decide), fun h => Split_no_sep path sep0 h,
    Split_single 32 path, fun c => Split_single c path, ?_, ?_, ?_, rfl, ?_,
    by decide, by decide, by decide⟩
  · intro h
    exact Split_unfold path sep0 h
  · intro m hm
    exact ⟨Index_some_occurs path sep0 m hm, fun k hk => Index_some_first path sep0 m hm k hk⟩
  · intro hn k
    exact Index_none_drop path sep0 hn k
  · intro hne
    cases path with
    | nil => exact absurd rfl hne
    | cons c s => exact ⟨runeSize_pos c s, explode_cons c s⟩

/-- Witness of C15 on `a,b c`, without separator and with the separators `,` and ` `, and on
`aé b` with the empty separator. -/
theorem split_pieces_witness :
    split (str "a,b c") [] = [str "a,b", str "c"] ∧
    split (str "a,b c") [str ",", str " "] = [str "a", str "b c"] ∧
    Join [str "a", str "b c"] (str ",") = str "a,b c" ∧
    (str "," ≠ [] ∧ ∀ piece ∈ split (str "a,b c") [str ",", str " "],
      Index piece (str ",") = none) ∧
    (Index (str "a,b c") (str ",") = some 1 ∧
      split (str "a,b c") [str ",", str " "]
        = (str "a,b c").take 1 :: split ((str "a,b c").drop (1 + (str ",").length))
            [str ",", str " "]) ∧
    (str "aé b" ≠ [] ∧ runeSize (str "aé b") = 1 ∧
      split (str "aé b") [[]]
        = (str "aé b").take (runeSize (str "aé b"))
            :: split ((str "aé b").drop (runeSize (str "aé b"))) [[]]) ∧
    split (str "aé b") [[]] = [str "a", str "é", str " ", str "b"] :=
  ⟨by decide, by decide, by decide,
    ⟨by decide, (split_pieces (str "a,b c") (str ",") [str " "]).2.2.2.2.2.1 (by decide)⟩,
    ⟨by decide, (split_pieces (str "a,b c") (str ",") [str " "]).2.2.2.2.2.2.2.2.1 (by decide)⟩,
    ⟨by decide, by decide,
      ((split_pieces (str "aé b") (str ",") []).2.2.2.2.2.2.2.2.2.2.2.2.1 (by decide)).2⟩,
    by decide⟩

end Recode
